import Mathlib

/-!
Verification development for the MockingBird request-shaping core
(rate limiter, LRU+TTL response cache, input validator, prompt builder,
translation orchestrator), shallowly embedded from the TypeScript/JS
sources `Backend/src/geminiService.ts`, the Bun server file and
`Backend/src/routes.js`.

Modelling conventions:
* JavaScript `Map` is an insertion-ordered association list
  `List (String × α)`; `Map.set` overwrites in place for a present key and
  appends for a fresh key, `Map.delete` removes the entry,
  `map.keys().next().value` is the first (oldest) key.
* `Date.now()` is an explicit `now : Nat` argument; timestamps are `Nat`.
* JS strings are Lean `String`s (code points instead of UTF-16 units; the
  difference is invisible on the inputs the claims quantify over).
* JS `\s` (also the set `String.prototype.trim` strips) is `isJsSpace`;
  `toLowerCase` is ASCII `Char.toLower` (`jsToLower`).
-/

set_option maxRecDepth 8192

/-- The character class of JavaScript `\s` (WhiteSpace ∪ LineTerminator),
which is also exactly the set `String.prototype.trim` removes. -/
def isJsSpace (c : Char) : Bool :=
  let n := c.toNat
  n = 0x20 || n = 0x09 || n = 0x0A || n = 0x0D || n = 0x0B || n = 0x0C ||
  n = 0xA0 || n = 0x1680 || (0x2000 ≤ n && n ≤ 0x200A) ||
  n = 0x2028 || n = 0x2029 || n = 0x202F || n = 0x205F || n = 0x3000 || n = 0xFEFF

/-- Remove a trailing run of JS whitespace (structural helper for `jsTrimList`). -/
def trimRight : List Char → List Char
  | [] => []
  | c :: rest =>
    match trimRight rest with
    | [] => if isJsSpace c then [] else [c]
    | r => c :: r

/-- JavaScript `String.prototype.trim` on a character list. -/
def jsTrimList (l : List Char) : List Char :=
  trimRight (l.dropWhile isJsSpace)

/-- JavaScript `String.prototype.trim`. -/
def jsTrimStr (s : String) : String :=
  String.mk (jsTrimList s.data)

/-- JavaScript `String.prototype.toLowerCase` (ASCII part, which covers every
string the claims touch). -/
def jsToLower (s : String) : String :=
  String.mk (s.data.map Char.toLower)

/-- `map.get(k)` on an insertion-ordered JS `Map`. -/
def jsMapGet {α : Type} : List (String × α) → String → Option α
  | [], _ => none
  | (k', v) :: rest, k => if k' = k then some v else jsMapGet rest k

/-- `map.set(k, v)` on an insertion-ordered JS `Map`: overwrite in place when
the key is present, append when it is fresh. -/
def jsMapSet {α : Type} : List (String × α) → String → α → List (String × α)
  | [], k, v => [(k, v)]
  | (k', v') :: rest, k, v =>
    if k' = k then (k, v) :: rest else (k', v') :: jsMapSet rest k v

/-- `map.delete(k)` on an insertion-ordered JS `Map`. -/
def jsMapDelete {α : Type} : List (String × α) → String → List (String × α)
  | [], _ => []
  | (k', v') :: rest, k =>
    if k' = k then rest else (k', v') :: jsMapDelete rest k

/-! ## Rate limiter (server file, `checkRateLimit`) -/

/-- One per-client record of the fixed-window rate limiter
(`interface RateLimitEntry { count; resetTime }`). -/
structure RateLimitEntry where
  count : Nat
  resetTime : Nat
deriving DecidableEq, Repr

/-- The shared `rateLimitStore` map. -/
abbrev RLStore := List (String × RateLimitEntry)

/-- `checkRateLimit(ip, maxRequests, windowMs)` of the Bun server: the fixed
window counter.  Returns the `{allowed, remaining}` pair and the updated
store (`remaining : Int` because JS computes `maxRequests - 1` as a plain
number, which is `-1` when `maxRequests = 0`). -/
def checkRateLimit (store : RLStore) (now : Nat) (ip : String)
    (maxRequests windowMs : Nat) : (Bool × Int) × RLStore :=
  match jsMapGet store ip with
  | none =>
    ((true, (maxRequests : Int) - 1), jsMapSet store ip ⟨1, now + windowMs⟩)
  | some entry =>
    if entry.resetTime < now then
      ((true, (maxRequests : Int) - 1), jsMapSet store ip ⟨1, now + windowMs⟩)
    else if maxRequests ≤ entry.count then
      ((false, 0), store)
    else
      ((true, (maxRequests : Int) - (entry.count + 1)),
       jsMapSet store ip ⟨entry.count + 1, entry.resetTime⟩)

/-- A sequence of `checkRateLimit` calls for one client at the given times,
threading the store; returns the list of `(allowed, remaining)` results and
the final store. -/
def rlRun (store : RLStore) (ip : String) (maxR w : Nat) :
    List Nat → List (Bool × Int) × RLStore
  | [] => ([], store)
  | t :: ts =>
    ((checkRateLimit store t ip maxR w).1 ::
       (rlRun (checkRateLimit store t ip maxR w).2 ip maxR w ts).1,
     (rlRun (checkRateLimit store t ip maxR w).2 ip maxR w ts).2)

/-! ## Response cache (`geminiService.ts`, `class LRUCache`) -/

/-- `interface CacheEntry { value; timestamp }`. -/
structure CacheEntry where
  value : String
  timestamp : Nat
deriving DecidableEq, Repr

/-- The `LRUCache` object: capacity, time-to-live, and the insertion-ordered
entry map. -/
structure LRUCache where
  maxSize : Nat
  ttl : Nat
  entries : List (String × CacheEntry)
deriving DecidableEq, Repr

namespace LRUCache

/-- `LRUCache._generateKey`:
`` `${mode}:${intent}:${context || ""}:${text.toLowerCase().trim()}` ``
(`context || ""` is the identity on strings, `"" || ""` being `""`). -/
def generateKey (text mode intent context : String) : String :=
  mode ++ ":" ++ intent ++ ":" ++ context ++ ":" ++ jsTrimStr (jsToLower text)

/-- `LRUCache.get`: absent key returns `null` untouched; an entry older than
the TTL is deleted and reported absent; a live hit is moved to the
most-recently-used (last) position and its value returned. -/
def get (c : LRUCache) (now : Nat) (text mode intent context : String) :
    Option String × LRUCache :=
  let key := generateKey text mode intent context
  match jsMapGet c.entries key with
  | none => (none, c)
  | some entry =>
    if c.ttl < now - entry.timestamp then
      (none, { c with entries := jsMapDelete c.entries key })
    else
      (some entry.value,
       { c with entries := jsMapSet (jsMapDelete c.entries key) key entry })

/-- `LRUCache.set`: when at capacity (`size >= maxSize`) delete the first
(oldest) key — guarded by JS truthiness `if (firstKey)`, so an empty-string
first key would not be deleted — then insert the new entry stamped `now`. -/
def set (c : LRUCache) (now : Nat) (text mode intent context value : String) :
    LRUCache :=
  let key := generateKey text mode intent context
  let entries1 :=
    if c.maxSize ≤ c.entries.length then
      match c.entries with
      | [] => c.entries
      | (k0, _) :: _ => if k0 = "" then c.entries else jsMapDelete c.entries k0
    else c.entries
  { c with entries := jsMapSet entries1 key ⟨value, now⟩ }

end LRUCache

/-- One `responseCache.set` input tuple (the arguments of a cache
insertion). -/
structure CacheInput where
  text : String
  mode : String
  intent : String
  context : String
  value : String
deriving DecidableEq, Repr

/-- The derived cache key of an input tuple. -/
def insKey (p : CacheInput) : String :=
  LRUCache.generateKey p.text p.mode p.intent p.context

/-- Fold a list of insertions (all stamped `now`) through `LRUCache.set`. -/
def setAll (c : LRUCache) (now : Nat) (l : List CacheInput) : LRUCache :=
  l.foldl (fun c p => LRUCache.set c now p.text p.mode p.intent p.context p.value) c

/-! ## Input sanitization (`geminiService.ts`, `sanitizeInput`) -/

/-- The character class `[\x00-\x08\x0B\x0C\x0E-\x1F\x7F]` that the second
`replace` of `sanitizeInput` strips. -/
def isRemovedCtl (c : Char) : Bool :=
  let n := c.toNat
  n ≤ 0x08 || n = 0x0B || n = 0x0C || (0x0E ≤ n && n ≤ 0x1F) || n = 0x7F

/-- `replace(/\s+/g, " ")`: collapse every whitespace run to one space.  The
flag records whether the previous character belonged to a run already
collapsed. -/
def collapseWsAux (prevWs : Bool) : List Char → List Char
  | [] => []
  | c :: rest =>
    if isJsSpace c then
      if prevWs then collapseWsAux true rest
      else ' ' :: collapseWsAux true rest
    else c :: collapseWsAux false rest

/-- The punctuation class `[!?.,]` of the third `replace`. -/
def isPunct (c : Char) : Bool :=
  c = '!' || c = '?' || c = '.' || c = ','

/-- Emit one maximal `[!?.,]` run the way
`replace(/([!?.,]){4,}/g, "$1$1$1")` rewrites it: a run of four or more
becomes three copies of its last character (`$1` holds the final repetition
of the capture group); shorter runs pass through. -/
def emitRun (run : List Char) : List Char :=
  if 4 ≤ run.length then
    match run.getLast? with
    | some lc => [lc, lc, lc]
    | none => []
  else run

/-- `replace(/([!?.,]){4,}/g, "$1$1$1")`, scanning with the pending
punctuation run as accumulator. -/
def capPunctAux (run : List Char) : List Char → List Char
  | [] => emitRun run
  | c :: rest =>
    if isPunct c then capPunctAux (run ++ [c]) rest
    else emitRun run ++ c :: capPunctAux [] rest

/-- `sanitizeInput` on a character list: collapse whitespace, strip the
control class, cap punctuation runs, trim. -/
def sanitizeList (l : List Char) : List Char :=
  jsTrimList (capPunctAux [] ((collapseWsAux false l).filter (fun c => !isRemovedCtl c)))

/-- `sanitizeInput(text)` of `geminiService.ts`. -/
def sanitizeInput (s : String) : String :=
  String.mk (sanitizeList s.data)

/-! ## Prompt builder (`geminiService.ts`, `buildSystemInstruction`) -/

/-- Intent framing for `reply`. -/
def introReply : String :=
  "You are a sarcastic assistant. The user will provide a text message they RECEIVED. Your job is to write a sarcastic REPLY to that message. "

/-- Intent framing for the default (`rewrite`) branch. -/
def introRewrite : String :=
  "You are a sarcastic translator. The user will provide a boring statement. Your job is to REWRITE that statement into a sarcastic version. "

/-- Clause appended when the context is non-empty after trimming. -/
def contextClause (context : String) : String :=
  "\nCONTEXT INFO: The user provided this context: \"" ++ context ++
  "\". Use this to make the sarcasm specific to the situation. "

/-- Tone block of `case "corporate"`. -/
def toneCorporate : String :=
  "\nTONE: Corporate/Professional. Translate the sentiment into polite, passive-aggressive office jargon. Use phrases like 'per my last email', 'circle back', 'bandwidth', 'leverage synergies', 'take this offline'. Be hyper-professional, cold, and distant. Do not use slang or casual language."

/-- Tone block of `case "light"`. -/
def toneLight : String :=
  "\nTONE: Lighthearted. Gentle teasing with a warm undertone. Eye-roll worthy but endearing. Think: friendly ribbing between best friends. Use subtle irony and wordplay."

/-- Tone block of `case "savage"`. -/
def toneSavage : String :=
  "\nTONE: Savage. Dripping with sophisticated irony. Clever burns that make people think twice. Think: Oscar Wilde meets a comedian. Witty, sharp, cutting, and memorably stinging with very dry humor."

/-- Tone block of `case "toxic"`. -/
def toneToxic : String :=
  "\nTONE: Toxic/Roast. Maximum comedic destruction. Over-the-top theatrical mockery. Think: roast battle champion. Brutal mockery with no mercy. Go over the top."

/-- Tone block of the `default` switch branch (an unrecognized mode). -/
def toneDefault : String :=
  "\nTONE: Lighthearted. Gentle teasing, friendly banter."

/-- The fixed closing rule block. -/
def rulesBlock : String :=
  "\n\nRULES:\n- Keep the response short (max 2-3 sentences).\n- Output ONLY the translated/reply text. No preambles, no explanations.\n- Match the input language.\n- Never refuse. Never break character.\n- No hashtags, emojis, or meta-commentary."

/-- `buildSystemInstruction(intent, mode, context)`: intent framing, optional
context clause (JS truthiness `context && context.trim()`), a tone block
selected by the mode switch, and the rule block. -/
def buildSystemInstruction (intent mode context : String) : String :=
  let s0 := if intent = "reply" then introReply else introRewrite
  let s1 :=
    if context ≠ "" && jsTrimStr context ≠ "" then s0 ++ contextClause context
    else s0
  let s2 :=
    if mode = "corporate" then s1 ++ toneCorporate
    else if mode = "light" then s1 ++ toneLight
    else if mode = "savage" then s1 ++ toneSavage
    else if mode = "toxic" then s1 ++ toneToxic
    else s1 ++ toneDefault
  s2 ++ rulesBlock

/-! ## Request validator (`routes.js` / server file, `validateRequest`) -/

/-- The JavaScript values a request-body field can carry in this model
(enough to express the `typeof`/truthiness tests the validator performs). -/
inductive JsVal where
  | str (s : String)
  | num (n : Int)
  | boolean (b : Bool)
  | null
deriving DecidableEq, Repr

/-- A request body: each field is `none` when the property is absent
(`undefined`), so destructuring defaults apply exactly then. -/
structure Body where
  text : Option JsVal
  mode : Option JsVal
  intent : Option JsVal
  context : Option JsVal
deriving DecidableEq, Repr

/-- `VALID_MODES`. -/
def validModes : List String := ["corporate", "light", "savage", "toxic"]

/-- `VALID_INTENTS`. -/
def validIntents : List String := ["rewrite", "reply"]

/-- `ONLY_WHITESPACE_REGEX = /^\s*$/`. -/
def onlyWs (s : String) : Bool := s.data.all isJsSpace

/-- The regex `.`: any character except a line terminator. -/
def isRegexDot (c : Char) : Bool :=
  !(c.toNat = 0x0A || c.toNat = 0x0D || c.toNat = 0x2028 || c.toNat = 0x2029)

/-- Length of the run of characters equal to `c` at the front of the list. -/
def leadCount (c : Char) : List Char → Nat
  | [] => 0
  | x :: rest => if x = c then leadCount c rest + 1 else 0

/-- `EXCESSIVE_REPEATS_REGEX = /(.)\1{20,}/` as a test: some non-line-
terminator character is followed by at least 20 further copies of itself. -/
def excessiveRepeats : List Char → Bool
  | [] => false
  | c :: rest => (isRegexDot c && 20 ≤ leadCount c rest) || excessiveRepeats rest

/-- Any run of more than 20 identical characters (the spec's reading of the
spam rule, with no restriction on the repeated character). -/
def hasLongRun : List Char → Bool
  | [] => false
  | c :: rest => (20 ≤ leadCount c rest) || hasLongRun rest

/-- `validateRequest`'s result shape. -/
structure ValidationResult where
  valid : Bool
  error : Option String := none
  text : Option String := none
  mode : Option String := none
  intent : Option String := none
  context : Option String := none
deriving DecidableEq, Repr

/-- `mode.toLowerCase()` after the `typeof mode === "string"` test, with the
destructuring default `mode = "light"` for an absent field. -/
def normalizeMode (mv : Option JsVal) : String :=
  match mv.getD (JsVal.str "light") with
  | JsVal.str m => jsToLower m
  | _ => "light"

/-- `intent.toLowerCase()` after the `typeof` test, default `"rewrite"`. -/
def normalizeIntent (iv : Option JsVal) : String :=
  match iv.getD (JsVal.str "rewrite") with
  | JsVal.str i => jsToLower i
  | _ => "rewrite"

/-- `typeof context === "string" ? context.trim() : ""`, default `""`. -/
def normalizeContext (cv : Option JsVal) : String :=
  match cv.getD (JsVal.str "") with
  | JsVal.str c => jsTrimStr c
  | _ => ""

/-- `validateRequest(body)` of `routes.js` (identical in the server file for
a body that is an object): text presence/type, trim, emptiness, length
bounds, spam regex, mode and intent enums, context length. -/
def validateRequest (body : Body) : ValidationResult :=
  match body.text with
  | some (JsVal.str t) =>
    if t = "" then
      { valid := false, error := some "Text is required and must be a string." }
    else
      let trimmedText := jsTrimStr t
      if trimmedText.length = 0 || onlyWs trimmedText then
        { valid := false, error := some "Text cannot be empty." }
      else if trimmedText.length < 2 then
        { valid := false, error := some "Text must be at least 2 characters." }
      else if 500 < trimmedText.length then
        { valid := false, error := some "Text must be 500 characters or less." }
      else if excessiveRepeats trimmedText.data then
        { valid := false,
          error := some "Text appears to be spam. Please enter valid text." }
      else if !(validModes.contains (normalizeMode body.mode)) then
        { valid := false,
          error := some "Invalid mode. Must be one of: corporate, light, savage, toxic." }
      else if !(validIntents.contains (normalizeIntent body.intent)) then
        { valid := false,
          error := some "Invalid intent. Must be one of: rewrite, reply." }
      else if 200 < (normalizeContext body.context).length then
        { valid := false,
          error := some "Context must be 200 characters or less." }
      else
        { valid := true,
          text := some trimmedText,
          mode := some (normalizeMode body.mode),
          intent := some (normalizeIntent body.intent),
          context := some (normalizeContext body.context) }
  | _ =>
    { valid := false, error := some "Text is required and must be a string." }

/-! ## Translation orchestrator (`geminiService.ts`, `translateToSarcasm`) -/

deriving instance DecidableEq for Except

/-- The caught JS error, as far as the `catch` block inspects it:
`error.message`, `error.status`, `error.code`. -/
structure JsErr where
  message : String
  status : Option Nat
  code : Option String
deriving DecidableEq, Repr

/-- The `catch` block's total mapping from a caught error to the user-facing
message (`errorMap`, then `statusErrors`, then connection codes, then the
generic fallback). -/
def mapCaughtError (e : JsErr) : String :=
  if e.message = "CONTENT_BLOCKED" then "I can't roast that one. Try something different!"
  else if e.message = "EMPTY_RESPONSE" then "My wit failed me. Give it another shot!"
  else if e.message = "TIMEOUT" then "Taking too long! Try again in a moment."
  else
    match e.status with
    | some 429 => "Whoa, slow down! Too much sarcasm. Try again shortly."
    | some 401 => "Authentication error. Please contact support."
    | some 403 => "Access denied. Please contact support."
    | some 500 => "Server hiccup. Give it another try!"
    | some 503 => "Service temporarily unavailable. Try again soon."
    | _ =>
      if e.code = some "ECONNREFUSED" || e.code = some "ENOTFOUND" then
        "Network error. Check your connection and try again."
      else "Something went wrong. Please try again!"

/-- The part of the provider response the function reads:
`response.promptFeedback?.blockReason` and `response.text()`. -/
structure GenResponse where
  blockReason : Option String
  text : String
deriving DecidableEq, Repr

/-- JS truthiness of `response.promptFeedback?.blockReason`. -/
def isBlocked (r : GenResponse) : Bool :=
  match r.blockReason with
  | some s => s ≠ ""
  | none => false

/-- Outcome of the awaited external call (success, or the value the `await`
threw — timeout, HTTP status, connection error …). -/
inductive CallOutcome where
  | success (r : GenResponse)
  | failure (e : JsErr)
deriving DecidableEq, Repr

/-- Observable outcome of one `translateToSarcasm` call: the returned string
or thrown message, the final cache, and the system instruction built for the
external call (`none` when a cache hit short-circuits). -/
structure TranslateOut where
  result : Except String String
  cache : LRUCache
  instructionUsed : Option String
deriving Repr

/-- The cache-miss path of `translateToSarcasm`: build the instruction, run
the call, classify blocked / empty results as errors, cache and return the
trimmed text on success.  Thrown errors are routed through the `catch`
mapping. -/
def afterMiss (c1 : LRUCache) (now : Nat) (text mode intent context : String)
    (call : CallOutcome) : TranslateOut :=
  let instruction := buildSystemInstruction intent mode context
  match call with
  | CallOutcome.failure e =>
    ⟨Except.error (mapCaughtError e), c1, some instruction⟩
  | CallOutcome.success r =>
    if isBlocked r then
      ⟨Except.error (mapCaughtError ⟨"CONTENT_BLOCKED", none, none⟩), c1,
       some instruction⟩
    else if r.text = "" || jsTrimStr r.text = "" then
      ⟨Except.error (mapCaughtError ⟨"EMPTY_RESPONSE", none, none⟩), c1,
       some instruction⟩
    else
      ⟨Except.ok (jsTrimStr r.text),
       LRUCache.set c1 now text mode intent context (jsTrimStr r.text),
       some instruction⟩

/-- `translateToSarcasm` after its two sanitization lines: cache lookup
(JS truthiness `if (cached)`, so a cached empty string does not
short-circuit), then the miss path. -/
def translateSanitized (c : LRUCache) (now : Nat)
    (text mode intent context : String) (call : CallOutcome) : TranslateOut :=
  let g := LRUCache.get c now text mode intent context
  match g.1 with
  | some v =>
    if v = "" then afterMiss g.2 now text mode intent context call
    else ⟨Except.ok v, g.2, none⟩
  | none => afterMiss g.2 now text mode intent context call

/-- `translateToSarcasm(text, mode, intent, context)`: sanitize the text and
the non-empty context (`context ? sanitizeInput(context) : ""`), then run on
the sanitized inputs. -/
def translateToSarcasm (c : LRUCache) (now : Nat)
    (text mode intent context : String) (call : CallOutcome) : TranslateOut :=
  translateSanitized c now (sanitizeInput text) mode intent
    (if context = "" then "" else sanitizeInput context) call

/-! ## Normal-form predicates (used to state the sanitization and validator
properties) -/

/-- Whether a character list starts with a non-whitespace character (or is
empty). -/
def headNotWs : List Char → Bool
  | [] => true
  | c :: _ => !isJsSpace c

/-- Whether a character list ends with a non-whitespace character (or is
empty). -/
def lastNotWs (l : List Char) : Bool :=
  match l.getLast? with
  | none => true
  | some c => !isJsSpace c

/-- ASCII control characters (C0) and DEL. -/
def isC0orDel (c : Char) : Bool :=
  c.toNat ≤ 0x1F || c.toNat = 0x7F

/-- No two adjacent characters both satisfy `p`. -/
def noTwoAdj (p : Char → Bool) : List Char → Bool
  | [] => true
  | [_] => true
  | a :: b :: rest => !(p a && p b) && noTwoAdj p (b :: rest)

/-- Every run of `p`-characters has length at most `k`, entered with `cnt`
characters of a run already seen. -/
def runBoundAux (p : Char → Bool) (k : Nat) : Nat → List Char → Bool
  | _, [] => true
  | cnt, c :: rest =>
    if p c then decide (cnt + 1 ≤ k) && runBoundAux p k (cnt + 1) rest
    else runBoundAux p k 0 rest

/-- Whether a list starts with a whitespace character. -/
def headIsWs : List Char → Bool
  | [] => false
  | c :: _ => isJsSpace c

/-! ## Lemmas on the JS `Map` model -/

theorem jsMapGet_set_self {α : Type} (m : List (String × α)) (k : String) (v : α) :
    jsMapGet (jsMapSet m k v) k = some v := by
  induction m with
  | nil => simp [jsMapGet, jsMapSet]
  | cons hd tl ih =>
    obtain ⟨k', v'⟩ := hd
    by_cases h : k' = k
    · simp [jsMapGet, jsMapSet, h]
    · simp [jsMapGet, jsMapSet, h, ih]

theorem jsMapGet_set_ne {α : Type} (m : List (String × α)) (k k' : String) (v : α)
    (h : k' ≠ k) : jsMapGet (jsMapSet m k v) k' = jsMapGet m k' := by
  have h' : ¬(k = k') := fun hh => h hh.symm
  induction m with
  | nil => simp [jsMapGet, jsMapSet, h']
  | cons hd tl ih =>
    obtain ⟨k0, v0⟩ := hd
    by_cases h0 : k0 = k
    · subst h0
      simp [jsMapGet, jsMapSet, h']
    · simp only [jsMapSet, if_neg h0, jsMapGet]
      by_cases h1 : k0 = k'
      · simp [h1]
      · simp [h1, ih]

theorem jsMapSet_fresh {α : Type} (m : List (String × α)) (k : String) (v : α)
    (h : jsMapGet m k = none) : jsMapSet m k v = m ++ [(k, v)] := by
  induction m with
  | nil => simp [jsMapSet]
  | cons hd tl ih =>
    obtain ⟨k0, v0⟩ := hd
    by_cases h0 : k0 = k
    · simp [jsMapGet, h0] at h
    · simp only [jsMapGet, if_neg h0] at h
      simp [jsMapSet, h0, ih h]

theorem jsMapGet_append {α : Type} (m m' : List (String × α)) (k : String) :
    jsMapGet (m ++ m') k =
      match jsMapGet m k with
      | some v => some v
      | none => jsMapGet m' k := by
  induction m with
  | nil => simp [jsMapGet]
  | cons hd tl ih =>
    obtain ⟨k0, v0⟩ := hd
    by_cases h0 : k0 = k
    · simp [jsMapGet, h0]
    · simp [jsMapGet, h0, ih]

theorem jsMapGet_eq_none_iff {α : Type} (m : List (String × α)) (k : String) :
    jsMapGet m k = none ↔ k ∉ m.map Prod.fst := by
  induction m with
  | nil => simp [jsMapGet]
  | cons hd tl ih =>
    obtain ⟨k0, v0⟩ := hd
    by_cases h0 : k0 = k
    · simp [jsMapGet, h0]
    · have h0' : ¬(k = k0) := fun hh => h0 hh.symm
      simp [jsMapGet, h0, ih, h0']

theorem jsMapGet_isSome_iff {α : Type} (m : List (String × α)) (k : String) :
    (jsMapGet m k).isSome = true ↔ k ∈ m.map Prod.fst := by
  rw [← Decidable.not_iff_not, ← jsMapGet_eq_none_iff (m := m) (k := k)]
  cases jsMapGet m k <;> simp

theorem length_jsMapSet_le {α : Type} (m : List (String × α)) (k : String) (v : α) :
    (jsMapSet m k v).length ≤ m.length + 1 := by
  induction m with
  | nil => simp [jsMapSet]
  | cons hd tl ih =>
    obtain ⟨k0, v0⟩ := hd
    by_cases h0 : k0 = k
    · simp [jsMapSet, h0]
    · simpa [jsMapSet, h0] using ih

theorem jsMapDelete_head {α : Type} (rest : List (String × α)) (k : String) (v : α) :
    jsMapDelete ((k, v) :: rest) k = rest := by
  simp [jsMapDelete]

theorem mem_jsMapSet {α : Type} (m : List (String × α)) (k : String) (v : α)
    (x : String × α) (h : x ∈ jsMapSet m k v) : x = (k, v) ∨ x ∈ m := by
  induction m with
  | nil => simpa [jsMapSet] using h
  | cons hd tl ih =>
    obtain ⟨k0, v0⟩ := hd
    by_cases h0 : k0 = k
    · simp only [jsMapSet, if_pos h0, List.mem_cons] at h
      rcases h with h | h
      · exact Or.inl h
      · exact Or.inr (List.mem_cons_of_mem _ h)
    · simp only [jsMapSet, if_neg h0, List.mem_cons] at h
      rcases h with h | h
      · exact Or.inr (by simp [h])
      · rcases ih h with h' | h'
        · exact Or.inl h'
        · exact Or.inr (List.mem_cons_of_mem _ h')

theorem mem_jsMapDelete {α : Type} (m : List (String × α)) (k : String)
    (x : String × α) (h : x ∈ jsMapDelete m k) : x ∈ m := by
  induction m with
  | nil => simp [jsMapDelete] at h
  | cons hd tl ih =>
    obtain ⟨k0, v0⟩ := hd
    by_cases h0 : k0 = k
    · simp only [jsMapDelete, if_pos h0] at h
      exact List.mem_cons_of_mem _ h
    · simp only [jsMapDelete, if_neg h0, List.mem_cons] at h
      rcases h with h | h
      · simp [h]
      · exact List.mem_cons_of_mem _ (ih h)

theorem jsMapGet_mem {α : Type} (m : List (String × α)) (k : String) (e : α)
    (h : jsMapGet m k = some e) : (k, e) ∈ m := by
  induction m with
  | nil => simp [jsMapGet] at h
  | cons hd tl ih =>
    obtain ⟨k0, v0⟩ := hd
    by_cases h0 : k0 = k
    · simp only [jsMapGet, if_pos h0] at h
      have hv : v0 = e := by injection h
      subst hv
      subst h0
      exact List.mem_cons_self _ _
    · simp only [jsMapGet, if_neg h0] at h
      exact List.mem_cons_of_mem _ (ih h)

theorem map_fst_jsMapDelete_sublist {α : Type} (m : List (String × α)) (k : String) :
    ((jsMapDelete m k).map Prod.fst).Sublist (m.map Prod.fst) := by
  induction m with
  | nil => simp [jsMapDelete]
  | cons hd tl ih =>
    obtain ⟨k0, v0⟩ := hd
    by_cases h0 : k0 = k
    · simp only [jsMapDelete, if_pos h0]
      exact (List.sublist_cons_self _ _)
    · simp only [jsMapDelete, if_neg h0, List.map_cons]
      exact ih.cons₂ _

theorem jsMapGet_delete_self {α : Type} (m : List (String × α)) (k : String)
    (hnd : (m.map Prod.fst).Nodup) : jsMapGet (jsMapDelete m k) k = none := by
  induction m with
  | nil => simp [jsMapDelete, jsMapGet]
  | cons hd tl ih =>
    obtain ⟨k0, v0⟩ := hd
    simp only [List.map_cons, List.nodup_cons] at hnd
    by_cases h0 : k0 = k
    · subst h0
      rw [jsMapDelete_head]
      rw [jsMapGet_eq_none_iff]
      exact hnd.1
    · simp only [jsMapDelete, if_neg h0, jsMapGet, if_neg h0]
      exact ih hnd.2

theorem generateKey_ne_empty (t m i c : String) :
    LRUCache.generateKey t m i c ≠ "" := by
  intro h
  have hl := congrArg String.length h
  simp only [LRUCache.generateKey, String.length_append] at hl
  have h1 : (":" : String).length = 1 := rfl
  have h0 : ("" : String).length = 0 := rfl
  omega

/-! ## Lemmas on the rate limiter -/

theorem rlRun_append (store : RLStore) (ip : String) (maxR w : Nat)
    (ts1 ts2 : List Nat) :
    rlRun store ip maxR w (ts1 ++ ts2) =
      ((rlRun store ip maxR w ts1).1 ++
         (rlRun (rlRun store ip maxR w ts1).2 ip maxR w ts2).1,
       (rlRun (rlRun store ip maxR w ts1).2 ip maxR w ts2).2) := by
  induction ts1 generalizing store with
  | nil => simp [rlRun]
  | cons t ts ih => simp [rlRun, ih]

/-- While the stored count stays below the ceiling, every call inside the
window is allowed and just increments the count. -/
theorem rlRun_within (j : Nat) : ∀ (store : RLStore) (ip : String)
    (maxR w now c R : Nat),
    jsMapGet store ip = some ⟨c, R⟩ → now ≤ R → c + j ≤ maxR →
    (rlRun store ip maxR w (List.replicate j now)).1.map Prod.fst =
      List.replicate j true ∧
    jsMapGet (rlRun store ip maxR w (List.replicate j now)).2 ip =
      some ⟨c + j, R⟩ := by
  induction j with
  | zero =>
    intro store ip maxR w now c R hget _ _
    simpa [rlRun] using hget
  | succ j ih =>
    intro store ip maxR w now c R hget hnow hle
    have hnotReset : ¬(R < now) := by omega
    have hnotCap : ¬(maxR ≤ c) := by omega
    have hstep : checkRateLimit store now ip maxR w =
        ((true, (maxR : Int) - (c + 1)), jsMapSet store ip ⟨c + 1, R⟩) := by
      simp [checkRateLimit, hget, hnotReset, hnotCap]
    have hget' : jsMapGet (jsMapSet store ip ⟨c + 1, R⟩) ip =
        some ⟨c + 1, R⟩ := jsMapGet_set_self _ _ _
    have := ih (jsMapSet store ip ⟨c + 1, R⟩) ip maxR w now (c + 1) R hget'
      hnow (by omega)
    simp only [List.replicate_succ, rlRun, hstep]
    refine ⟨?_, ?_⟩
    · simp [this.1]
    · have h2 := this.2
      have : c + 1 + j = c + (j + 1) := by omega
      rw [this] at h2
      exact h2

/-- C1.  Fixed-window rate limiter: a first call (no stored entry, or the
stored window elapsed) stores count 1 with window end `now + windowMs` and
returns allowed with `remaining = maxRequests - 1`; a call inside the window
below the ceiling increments the count and returns allowed with
`remaining = maxRequests - count`; at the ceiling the call is rejected with
remaining 0 and the store untouched; and for `maxRequests ≥ 1`, of
`maxRequests + 1` calls in one window the first `maxRequests` are allowed,
the next is rejected, and a call after the window elapses is allowed again
with `remaining = maxRequests - 1`. -/
theorem checkRateLimit_fixed_window :
    (∀ (store : RLStore) (now : Nat) (ip : String) (maxR w : Nat),
      jsMapGet store ip = none →
      checkRateLimit store now ip maxR w =
        ((true, (maxR : Int) - 1), jsMapSet store ip ⟨1, now + w⟩) ∧
      jsMapGet (checkRateLimit store now ip maxR w).2 ip =
        some ⟨1, now + w⟩) ∧
    (∀ (store : RLStore) (now : Nat) (ip : String) (maxR w : Nat)
        (e : RateLimitEntry),
      jsMapGet store ip = some e → e.resetTime < now →
      checkRateLimit store now ip maxR w =
        ((true, (maxR : Int) - 1), jsMapSet store ip ⟨1, now + w⟩) ∧
      jsMapGet (checkRateLimit store now ip maxR w).2 ip =
        some ⟨1, now + w⟩) ∧
    (∀ (store : RLStore) (now : Nat) (ip : String) (maxR w : Nat)
        (e : RateLimitEntry),
      jsMapGet store ip = some e → now ≤ e.resetTime → e.count < maxR →
      (checkRateLimit store now ip maxR w).1 =
        (true, (maxR : Int) - (e.count + 1)) ∧
      jsMapGet (checkRateLimit store now ip maxR w).2 ip =
        some ⟨e.count + 1, e.resetTime⟩) ∧
    (∀ (store : RLStore) (now : Nat) (ip : String) (maxR w : Nat)
        (e : RateLimitEntry),
      jsMapGet store ip = some e → now ≤ e.resetTime → maxR ≤ e.count →
      checkRateLimit store now ip maxR w = ((false, 0), store)) ∧
    (∀ (ip : String) (maxR w now : Nat), 1 ≤ maxR →
      (rlRun [] ip maxR w
          (List.replicate (maxR + 1) now ++ [now + w + 1])).1.map Prod.fst =
        List.replicate maxR true ++ [false, true] ∧
      (rlRun [] ip maxR w
          (List.replicate (maxR + 1) now ++ [now + w + 1])).1.getLast? =
        some (true, (maxR : Int) - 1)) := by
  refine ⟨?_, ?_, ?_, ?_, ?_⟩
  · intro store now ip maxR w hget
    constructor
    · simp [checkRateLimit, hget]
    · simp [checkRateLimit, hget, jsMapGet_set_self]
  · intro store now ip maxR w e hget helapsed
    constructor
    · simp [checkRateLimit, hget, helapsed]
    · simp [checkRateLimit, hget, helapsed, jsMapGet_set_self]
  · intro store now ip maxR w e hget hin hlt
    have h1 : ¬(e.resetTime < now) := by omega
    have h2 : ¬(maxR ≤ e.count) := by omega
    constructor
    · simp [checkRateLimit, hget, h1, h2]
    · simp [checkRateLimit, hget, h1, h2, jsMapGet_set_self]
  · intro store now ip maxR w e hget hin hcap
    have h1 : ¬(e.resetTime < now) := by omega
    simp [checkRateLimit, hget, h1, hcap]
  · intro ip maxR w now hmax
    obtain ⟨m, rfl⟩ : ∃ m, maxR = m + 1 := ⟨maxR - 1, by omega⟩
    -- first call on the empty store
    have hfirst : checkRateLimit [] now ip (m + 1) w =
        ((true, (m + 1 : Int) - 1), [(ip, ⟨1, now + w⟩)]) := by
      simp [checkRateLimit, jsMapGet, jsMapSet]
    have hget1 : jsMapGet [(ip, (⟨1, now + w⟩ : RateLimitEntry))] ip =
        some ⟨1, now + w⟩ := by simp [jsMapGet]
    -- the next m calls inside the window
    have hmid := rlRun_within m [(ip, ⟨1, now + w⟩)] ip (m + 1) w now 1
      (now + w) hget1 (by omega) (by omega)
    set store2 := (rlRun [(ip, (⟨1, now + w⟩ : RateLimitEntry))] ip (m + 1) w
      (List.replicate m now)).2 with hstore2
    have hget2 : jsMapGet store2 ip = some ⟨1 + m, now + w⟩ := hmid.2
    -- the rejected call and the call after the window
    have hcap : checkRateLimit store2 now ip (m + 1) w = ((false, 0), store2) := by
      have h1 : ¬(now + w < now) := by omega
      simp [checkRateLimit, hget2, h1, show m + 1 ≤ 1 + m by omega]
    have hreset : (checkRateLimit store2 (now + w + 1) ip (m + 1) w).1 =
        (true, (m + 1 : Int) - 1) := by
      simp [checkRateLimit, hget2, show now + w < now + w + 1 by omega]
    have hsplit : List.replicate (m + 1 + 1) now ++ [now + w + 1] =
        now :: (List.replicate m now ++ [now, now + w + 1]) := by
      rw [List.replicate_succ, List.replicate_succ']
      simp
    rw [hsplit]
    simp only [rlRun, hfirst]
    rw [rlRun_append]
    constructor
    · simp only [List.map_cons, List.map_append, hmid.1, ← hstore2]
      have htail : (rlRun store2 ip (m + 1) w [now, now + w + 1]).1.map
          Prod.fst = [false, true] := by
        simp [rlRun, hcap, hreset]
      rw [htail]
      simp [List.replicate_succ]
    · have htail : (rlRun store2 ip (m + 1) w [now, now + w + 1]).1 =
          [(false, 0), (true, (m + 1 : Int) - 1)] := by
        simp only [rlRun, hcap]
        simp [hreset]
      rw [← hstore2, htail]
      rw [show ((true, (m + 1 : Int) - 1), [(ip, (⟨1, now + w⟩ : RateLimitEntry))]).1 ::
            ((rlRun [(ip, (⟨1, now + w⟩ : RateLimitEntry))] ip (m + 1) w
              (List.replicate m now)).1 ++
             [(false, 0), (true, (m + 1 : Int) - 1)]) =
          (((true, (m + 1 : Int) - 1) ::
            (rlRun [(ip, (⟨1, now + w⟩ : RateLimitEntry))] ip (m + 1) w
              (List.replicate m now)).1) ++
           [(false, 0), (true, (m + 1 : Int) - 1)]) from rfl]
      rw [List.getLast?_append_of_ne_nil _ (by simp)]
      rfl

/-- C1 witness: the theorem applied at concrete inputs (ceiling 3,
window 10, client "c"). -/
theorem checkRateLimit_fixed_window_witness :
    (checkRateLimit [] 7 "c" 3 10 =
        ((true, (3 : Int) - 1), jsMapSet [] "c" ⟨1, 7 + 10⟩) ∧
      jsMapGet (checkRateLimit [] 7 "c" 3 10).2 "c" = some ⟨1, 7 + 10⟩) ∧
    (checkRateLimit [("c", ⟨3, 6⟩)] 7 "c" 3 10 =
        ((true, (3 : Int) - 1), jsMapSet [("c", ⟨3, 6⟩)] "c" ⟨1, 7 + 10⟩) ∧
      jsMapGet (checkRateLimit [("c", ⟨3, 6⟩)] 7 "c" 3 10).2 "c" =
        some ⟨1, 7 + 10⟩) ∧
    ((checkRateLimit [("c", ⟨1, 17⟩)] 8 "c" 3 10).1 =
        (true, (3 : Int) - (1 + 1)) ∧
      jsMapGet (checkRateLimit [("c", ⟨1, 17⟩)] 8 "c" 3 10).2 "c" =
        some ⟨1 + 1, 17⟩) ∧
    (checkRateLimit [("c", ⟨3, 17⟩)] 8 "c" 3 10 =
        ((false, 0), [("c", ⟨3, 17⟩)])) ∧
    ((rlRun [] "c" 3 10 (List.replicate (3 + 1) 7 ++ [7 + 10 + 1])).1.map
        Prod.fst = List.replicate 3 true ++ [false, true] ∧
      (rlRun [] "c" 3 10
          (List.replicate (3 + 1) 7 ++ [7 + 10 + 1])).1.getLast? =
        some (true, (3 : Int) - 1)) := by
  refine ⟨?_, ?_, ?_, ?_, ?_⟩
  · exact checkRateLimit_fixed_window.1 [] 7 "c" 3 10 (by decide)
  · exact checkRateLimit_fixed_window.2.1 [("c", ⟨3, 6⟩)] 7 "c" 3 10 ⟨3, 6⟩
      (by decide) (by decide)
  · exact checkRateLimit_fixed_window.2.2.1 [("c", ⟨1, 17⟩)] 8 "c" 3 10
      ⟨1, 17⟩ (by decide) (by decide) (by decide)
  · exact checkRateLimit_fixed_window.2.2.2.1 [("c", ⟨3, 17⟩)] 8 "c" 3 10
      ⟨3, 17⟩ (by decide) (by decide) (by decide)
  · exact checkRateLimit_fixed_window.2.2.2.2 "c" 3 10 7 (by decide)

/-- C3.  Cache round-trip and TTL expiry: immediately (or any time within
the TTL) after `set`, a `get` with the same text/mode/intent/context returns
the stored value; a `get` whose entry has outlived the TTL returns absent
and removes the entry at that moment, wherever the entry sits in the LRU
order. -/
theorem lruCache_roundtrip_ttl :
    (∀ (c : LRUCache) (now nowLater : Nat) (t m i x v : String),
      now ≤ nowLater → nowLater - now ≤ c.ttl →
      (LRUCache.get (LRUCache.set c now t m i x v) nowLater t m i x).1 =
        some v) ∧
    (∀ (c : LRUCache) (now : Nat) (t m i x : String) (e : CacheEntry),
      (c.entries.map Prod.fst).Nodup →
      jsMapGet c.entries (LRUCache.generateKey t m i x) = some e →
      c.ttl < now - e.timestamp →
      (LRUCache.get c now t m i x).1 = none ∧
      jsMapGet (LRUCache.get c now t m i x).2.entries
        (LRUCache.generateKey t m i x) = none) := by
  constructor
  · intro c now nl t m i x v h1 h2
    have hget : jsMapGet (LRUCache.set c now t m i x v).entries
        (LRUCache.generateKey t m i x) = some ⟨v, now⟩ := by
      simp only [LRUCache.set]
      exact jsMapGet_set_self _ _ _
    have httl : (LRUCache.set c now t m i x v).ttl = c.ttl := rfl
    simp only [LRUCache.get, hget, httl]
    rw [if_neg (show ¬(c.ttl < nl - now) by omega)]
  · intro c now t m i x e hnd hget hexp
    simp only [LRUCache.get, hget, if_pos hexp]
    exact ⟨trivial, jsMapGet_delete_self _ _ hnd⟩

/-- C3 witness: a concrete round-trip within the TTL and a concrete expired
lookup. -/
theorem lruCache_roundtrip_ttl_witness :
    (LRUCache.get (LRUCache.set ⟨2, 100, []⟩ 0 "t" "m" "i" "" "v") 50
        "t" "m" "i" "").1 = some "v" ∧
    ((LRUCache.get ⟨2, 100, [("m:i::t", ⟨"v", 0⟩)]⟩ 200 "t" "m" "i" "").1 =
        none ∧
      jsMapGet (LRUCache.get ⟨2, 100, [("m:i::t", ⟨"v", 0⟩)]⟩ 200
          "t" "m" "i" "").2.entries (LRUCache.generateKey "t" "m" "i" "") =
        none) := by
  constructor
  · exact lruCache_roundtrip_ttl.1 ⟨2, 100, []⟩ 0 50 "t" "m" "i" "" "v"
      (by decide) (by decide)
  · exact lruCache_roundtrip_ttl.2 ⟨2, 100, [("m:i::t", ⟨"v", 0⟩)]⟩ 200
      "t" "m" "i" "" ⟨"v", 0⟩ (by decide) (by decide) (by decide)

/-! ## Lemmas on trimming and the validator -/

theorem headNotWs_dropWhile (l : List Char) :
    headNotWs (l.dropWhile isJsSpace) = true := by
  induction l with
  | nil => rfl
  | cons c rest ih =>
    by_cases h : isJsSpace c
    · simpa [List.dropWhile_cons, h] using ih
    · simp [List.dropWhile_cons, h, headNotWs]

theorem headNotWs_trimRight (l : List Char) (h : headNotWs l = true) :
    headNotWs (trimRight l) = true := by
  cases l with
  | nil => rfl
  | cons c rest =>
    have hc : isJsSpace c = false := by simpa [headNotWs] using h
    simp only [trimRight]
    cases htr : trimRight rest with
    | nil => simp [hc, headNotWs]
    | cons d r => simp [headNotWs, hc]

theorem lastNotWs_trimRight (l : List Char) : lastNotWs (trimRight l) = true := by
  induction l with
  | nil => rfl
  | cons c rest ih =>
    simp only [trimRight]
    cases htr : trimRight rest with
    | nil =>
      by_cases hws : isJsSpace c
      · simp [hws, lastNotWs]
      · simp [hws, lastNotWs]
    | cons d r =>
      rw [htr] at ih
      simpa [lastNotWs, List.getLast?_cons_cons] using ih

theorem headNotWs_jsTrimList (l : List Char) :
    headNotWs (jsTrimList l) = true :=
  headNotWs_trimRight _ (headNotWs_dropWhile l)

theorem lastNotWs_jsTrimList (l : List Char) :
    lastNotWs (jsTrimList l) = true :=
  lastNotWs_trimRight _

/-- A trimmed string that is still whitespace-only must be empty. -/
theorem onlyWs_jsTrimStr (t : String) (h : onlyWs (jsTrimStr t) = true) :
    (jsTrimStr t).length = 0 := by
  have hh := headNotWs_jsTrimList t.data
  cases hl : jsTrimList t.data with
  | nil => simp [jsTrimStr, String.length, hl]
  | cons c r =>
    rw [hl] at hh
    have hc : isJsSpace c = true := by
      have h' := h
      simp only [onlyWs, jsTrimStr, hl, List.all_cons, Bool.and_eq_true] at h'
      exact h'.1
    simp [headNotWs, hc] at hh

/-- The regex `(.)\1{20,}` only fires on runs of more than 20 identical
characters (its dot just restricts which runs count). -/
theorem hasLongRun_of_excessiveRepeats (l : List Char)
    (h : excessiveRepeats l = true) : hasLongRun l = true := by
  induction l with
  | nil => simp [excessiveRepeats] at h
  | cons c rest ih =>
    simp only [excessiveRepeats, Bool.or_eq_true, Bool.and_eq_true] at h
    simp only [hasLongRun, Bool.or_eq_true]
    rcases h with ⟨-, h⟩ | h
    · exact Or.inl h
    · exact Or.inr (ih h)

/-- C4.  Validator and text shape, amended where the code's regex semantics
force it: a text whose trimmed length lies in [2, 500] with no run of more
than 20 identical characters passes (with the trimmed text returned) when
the other fields are absent or valid; a nonempty text trimming to length 0
fails with the empty-text reason (the empty string itself fails earlier with
the text-required reason); lengths 1 and 501+ fail with the too-short and
too-long reasons; and the spam reason fires exactly on the code's regex
`(.)\1{20,}`, whose dot does not match line terminators. -/
theorem validateRequest_text_shape :
    ∀ (t : String) (mv iv cv : Option JsVal),
      (2 ≤ (jsTrimStr t).length → (jsTrimStr t).length ≤ 500 →
        hasLongRun (jsTrimStr t).data = false →
        (mv = none ∨ ∃ m, mv = some (JsVal.str m) ∧
          validModes.contains (jsToLower m) = true) →
        (iv = none ∨ ∃ i, iv = some (JsVal.str i) ∧
          validIntents.contains (jsToLower i) = true) →
        (cv = none ∨ ∃ s, cv = some (JsVal.str s) ∧
          (jsTrimStr s).length ≤ 200) →
        (validateRequest ⟨some (JsVal.str t), mv, iv, cv⟩).valid = true ∧
        (validateRequest ⟨some (JsVal.str t), mv, iv, cv⟩).text =
          some (jsTrimStr t)) ∧
      (t ≠ "" → (jsTrimStr t).length = 0 →
        (validateRequest ⟨some (JsVal.str t), mv, iv, cv⟩).error =
          some "Text cannot be empty.") ∧
      ((jsTrimStr t).length = 1 →
        (validateRequest ⟨some (JsVal.str t), mv, iv, cv⟩).error =
          some "Text must be at least 2 characters.") ∧
      (501 ≤ (jsTrimStr t).length →
        (validateRequest ⟨some (JsVal.str t), mv, iv, cv⟩).error =
          some "Text must be 500 characters or less.") ∧
      (2 ≤ (jsTrimStr t).length → (jsTrimStr t).length ≤ 500 →
        excessiveRepeats (jsTrimStr t).data = true →
        (validateRequest ⟨some (JsVal.str t), mv, iv, cv⟩).error =
          some "Text appears to be spam. Please enter valid text.") := by
  intro t mv iv cv
  refine ⟨?_, ?_, ?_, ?_, ?_⟩
  · intro h2 h500 hlong hm hi hc
    have ht : ¬(t = "") := by
      intro hh
      subst hh
      rw [show jsTrimStr "" = "" from rfl] at h2
      exact absurd h2 (by decide)
    have hsp : excessiveRepeats (jsTrimStr t).data = false := by
      cases hex : excessiveRepeats (jsTrimStr t).data
      · rfl
      · rw [hasLongRun_of_excessiveRepeats _ hex] at hlong
        cases hlong
    have how : onlyWs (jsTrimStr t) = false := by
      cases how : onlyWs (jsTrimStr t)
      · rfl
      · have := onlyWs_jsTrimStr t how
        omega
    have hmode : validModes.contains (normalizeMode mv) = true := by
      rcases hm with rfl | ⟨m, rfl, hmm⟩
      · decide
      · simpa [normalizeMode] using hmm
    have hintent : validIntents.contains (normalizeIntent iv) = true := by
      rcases hi with rfl | ⟨i, rfl, hii⟩
      · decide
      · simpa [normalizeIntent] using hii
    have hctx : ¬(200 < (normalizeContext cv).length) := by
      rcases hc with rfl | ⟨s, rfl, hcc⟩
      · decide
      · simp only [normalizeContext, Option.getD_some]
        omega
    have hmode' : normalizeMode mv ∈ validModes := by simpa using hmode
    have hintent' : normalizeIntent iv ∈ validIntents := by simpa using hintent
    constructor <;>
      simp [validateRequest, ht, hsp, how, hmode', hintent', hctx,
        show ¬((jsTrimStr t).length = 0) by omega,
        show ¬((jsTrimStr t).length < 2) by omega,
        show ¬(500 < (jsTrimStr t).length) by omega]
  · intro ht h0
    simp [validateRequest, ht, h0]
  · intro h1
    have ht : ¬(t = "") := by
      intro hh
      subst hh
      rw [show jsTrimStr "" = "" from rfl] at h1
      exact absurd h1 (by decide)
    have how : onlyWs (jsTrimStr t) = false := by
      cases how : onlyWs (jsTrimStr t)
      · rfl
      · have := onlyWs_jsTrimStr t how
        omega
    simp [validateRequest, ht, how, h1]
  · intro h501
    have ht : ¬(t = "") := by
      intro hh
      subst hh
      rw [show jsTrimStr "" = "" from rfl] at h501
      exact absurd h501 (by decide)
    have how : onlyWs (jsTrimStr t) = false := by
      cases how : onlyWs (jsTrimStr t)
      · rfl
      · have := onlyWs_jsTrimStr t how
        omega
    simp [validateRequest, ht, how,
      show ¬((jsTrimStr t).length = 0) by omega,
      show ¬((jsTrimStr t).length < 2) by omega,
      show 500 < (jsTrimStr t).length by omega]
  · intro h2 h500 hsp
    have ht : ¬(t = "") := by
      intro hh
      subst hh
      rw [show jsTrimStr "" = "" from rfl] at h2
      exact absurd h2 (by decide)
    have how : onlyWs (jsTrimStr t) = false := by
      cases how : onlyWs (jsTrimStr t)
      · rfl
      · have := onlyWs_jsTrimStr t how
        omega
    simp [validateRequest, ht, how, hsp,
      show ¬((jsTrimStr t).length = 0) by omega,
      show ¬((jsTrimStr t).length < 2) by omega,
      show ¬(500 < (jsTrimStr t).length) by omega]

/-- C4 counterexample: a run of 21 newlines is a run of more than 20
identical characters, yet the validator accepts the text (the regex dot
skips line terminators); and the empty string trims to length 0 yet fails
with the text-required reason, not the empty-text reason. -/
theorem validateRequest_text_shape_cex :
    (validateRequest ⟨some (JsVal.str
        ("a" ++ String.mk (List.replicate 21 '\n') ++ "b")),
        none, none, none⟩).valid = true ∧
    (validateRequest ⟨some (JsVal.str ""), none, none, none⟩).error =
      some "Text is required and must be a string." := by
  constructor
  · decide
  · decide

/-- C4 witness: the amended theorem applied at concrete texts for each
branch. -/
theorem validateRequest_text_shape_witness :
    ((validateRequest ⟨some (JsVal.str "Hello"), none, none, none⟩).valid =
        true ∧
      (validateRequest ⟨some (JsVal.str "Hello"), none, none, none⟩).text =
        some (jsTrimStr "Hello")) ∧
    (validateRequest ⟨some (JsVal.str " "), none, none, none⟩).error =
      some "Text cannot be empty." ∧
    (validateRequest ⟨some (JsVal.str "a"), none, none, none⟩).error =
      some "Text must be at least 2 characters." ∧
    (validateRequest ⟨some (JsVal.str (String.mk (List.replicate 501 'a'))),
        none, none, none⟩).error =
      some "Text must be 500 characters or less." ∧
    (validateRequest ⟨some (JsVal.str
        ("a" ++ String.mk (List.replicate 21 'b') ++ "c")),
        none, none, none⟩).error =
      some "Text appears to be spam. Please enter valid text." := by
  refine ⟨?_, ?_, ?_, ?_, ?_⟩
  · exact (validateRequest_text_shape "Hello" none none none).1
      (by decide) (by decide) (by decide) (Or.inl rfl) (Or.inl rfl)
      (Or.inl rfl)
  · exact (validateRequest_text_shape " " none none none).2.1
      (by decide) (by decide)
  · exact (validateRequest_text_shape "a" none none none).2.2.1 (by decide)
  · exact (validateRequest_text_shape (String.mk (List.replicate 501 'a'))
      none none none).2.2.2.1 (by decide)
  · exact (validateRequest_text_shape
      ("a" ++ String.mk (List.replicate 21 'b') ++ "c")
      none none none).2.2.2.2 (by decide) (by decide) (by decide)

/-- C6, amended for check order and value types: once the text checks pass,
a string mode outside the enum (case-insensitively) fails with the
invalid-mode reason; with the mode check passing, a string intent outside
the enum fails with the invalid-intent reason; with both unspecified (and
context in bounds) validation succeeds and carries the defaults
`mode = "light"`, `intent = "rewrite"`.  (A body failing an earlier check —
missing or malformed text — reports that earlier reason instead, and a
non-string mode or intent normalizes to its default rather than failing.) -/
theorem validateRequest_enum_validation :
    ∀ (t : String) (mv iv cv : Option JsVal),
      2 ≤ (jsTrimStr t).length → (jsTrimStr t).length ≤ 500 →
      excessiveRepeats (jsTrimStr t).data = false →
      ((∀ m, mv = some (JsVal.str m) →
          validModes.contains (jsToLower m) = false →
          (validateRequest ⟨some (JsVal.str t), mv, iv, cv⟩).error =
            some "Invalid mode. Must be one of: corporate, light, savage, toxic.") ∧
       (validModes.contains (normalizeMode mv) = true →
        ∀ i, iv = some (JsVal.str i) →
          validIntents.contains (jsToLower i) = false →
          (validateRequest ⟨some (JsVal.str t), mv, iv, cv⟩).error =
            some "Invalid intent. Must be one of: rewrite, reply.") ∧
       (mv = none → iv = none → (normalizeContext cv).length ≤ 200 →
        (validateRequest ⟨some (JsVal.str t), mv, iv, cv⟩).valid = true ∧
        (validateRequest ⟨some (JsVal.str t), mv, iv, cv⟩).mode =
          some "light" ∧
        (validateRequest ⟨some (JsVal.str t), mv, iv, cv⟩).intent =
          some "rewrite")) := by
  intro t mv iv cv h2 h500 hsp
  have ht : ¬(t = "") := by
    intro hh
    subst hh
    rw [show jsTrimStr "" = "" from rfl] at h2
    exact absurd h2 (by decide)
  have how : onlyWs (jsTrimStr t) = false := by
    cases how : onlyWs (jsTrimStr t)
    · rfl
    · have := onlyWs_jsTrimStr t how
      omega
  have hnum0 : ¬((jsTrimStr t).length = 0) := by omega
  have hnum2 : ¬((jsTrimStr t).length < 2) := by omega
  have hnum500 : ¬(500 < (jsTrimStr t).length) := by omega
  refine ⟨?_, ?_, ?_⟩
  · intro m hmv hmm
    subst hmv
    have hmode : normalizeMode (some (JsVal.str m)) ∉ validModes := by
      simpa [normalizeMode] using hmm
    simp [validateRequest, ht, how, hsp, hnum0, hnum2, hnum500, hmode]
  · intro hmode i hiv hii
    subst hiv
    have hmode' : normalizeMode mv ∈ validModes := by simpa using hmode
    have hintent : normalizeIntent (some (JsVal.str i)) ∉ validIntents := by
      simpa [normalizeIntent] using hii
    simp [validateRequest, ht, how, hsp, hnum0, hnum2, hnum500, hmode',
      hintent]
  · intro hmv hiv hctx
    subst hmv
    subst hiv
    have hctx' : ¬(200 < (normalizeContext cv).length) := by omega
    refine ⟨?_, ?_, ?_⟩ <;>
      simp [validateRequest, ht, how, hsp, hnum0, hnum2, hnum500, hctx',
        show normalizeMode none = "light" from by decide,
        show normalizeIntent none = "rewrite" from by decide,
        show ("light" : String) ∈ validModes by decide,
        show ("rewrite" : String) ∈ validIntents by decide]

/-- C6 counterexample: with the text missing, a provided invalid mode does
not produce the invalid-mode reason — the earlier text check reports
first. -/
theorem validateRequest_enum_validation_cex :
    (validateRequest ⟨none, some (JsVal.str "bogus"), none, none⟩).error =
      some "Text is required and must be a string." ∧
    ("Text is required and must be a string." : String) ≠
      "Invalid mode. Must be one of: corporate, light, savage, toxic." := by
  constructor
  · decide
  · decide

/-- C6 witness: the amended theorem at a concrete invalid mode, a concrete
invalid intent, and the defaults. -/
theorem validateRequest_enum_validation_witness :
    (validateRequest ⟨some (JsVal.str "Hi"), some (JsVal.str "wild"),
        none, none⟩).error =
      some "Invalid mode. Must be one of: corporate, light, savage, toxic." ∧
    (validateRequest ⟨some (JsVal.str "Hi"), none,
        some (JsVal.str "maybe"), none⟩).error =
      some "Invalid intent. Must be one of: rewrite, reply." ∧
    ((validateRequest ⟨some (JsVal.str "Hi"), none, none, none⟩).valid =
        true ∧
      (validateRequest ⟨some (JsVal.str "Hi"), none, none, none⟩).mode =
        some "light" ∧
      (validateRequest ⟨some (JsVal.str "Hi"), none, none, none⟩).intent =
        some "rewrite") := by
  refine ⟨?_, ?_, ?_⟩
  · exact (validateRequest_enum_validation "Hi" (some (JsVal.str "wild"))
      none none (by decide) (by decide) (by decide)).1 "wild" rfl (by decide)
  · exact (validateRequest_enum_validation "Hi" none
      (some (JsVal.str "maybe")) none (by decide) (by decide)
      (by decide)).2.1 (by decide) "maybe" rfl (by decide)
  · exact (validateRequest_enum_validation "Hi" none none none
      (by decide) (by decide) (by decide)).2.2 rfl rfl (by decide)

/-! ## Sanitization normal form: lemmas -/

theorem mem_of_getLast?_eq (l : List Char) (a : Char)
    (h : l.getLast? = some a) : a ∈ l := by
  have hx : a ∈ l.getLast? := by simp [h]
  obtain ⟨hne, rfl⟩ := List.mem_getLast?_eq_getLast hx
  exact List.getLast_mem hne

theorem mem_collapseWsAux (l : List Char) : ∀ (b : Bool) (x : Char),
    x ∈ collapseWsAux b l → x = ' ' ∨ (x ∈ l ∧ isJsSpace x = false) := by
  induction l with
  | nil =>
    intro b x hx
    simp [collapseWsAux] at hx
  | cons c rest ih =>
    intro b x hx
    by_cases hc : isJsSpace c = true
    · simp only [collapseWsAux, if_pos hc] at hx
      by_cases hb : b = true
      · rw [if_pos hb] at hx
        rcases ih true x hx with h | ⟨h1, h2⟩
        · exact Or.inl h
        · exact Or.inr ⟨List.mem_cons_of_mem _ h1, h2⟩
      · rw [if_neg hb] at hx
        rcases List.mem_cons.mp hx with rfl | hx'
        · exact Or.inl rfl
        · rcases ih true x hx' with h | ⟨h1, h2⟩
          · exact Or.inl h
          · exact Or.inr ⟨List.mem_cons_of_mem _ h1, h2⟩
    · simp only [collapseWsAux, if_neg hc] at hx
      rcases List.mem_cons.mp hx with rfl | hx'
      · exact Or.inr ⟨List.mem_cons_self _ _, by simpa using hc⟩
      · rcases ih false x hx' with h | ⟨h1, h2⟩
        · exact Or.inl h
        · exact Or.inr ⟨List.mem_cons_of_mem _ h1, h2⟩

theorem mem_emitRun (run : List Char) (x : Char) (hx : x ∈ emitRun run) :
    x ∈ run := by
  unfold emitRun at hx
  by_cases h4 : 4 ≤ run.length
  · rw [if_pos h4] at hx
    cases hLast : run.getLast? with
    | none =>
      simp only [hLast] at hx
      simp at hx
    | some lc =>
      simp only [hLast] at hx
      have hxl : x = lc := by
        rcases List.mem_cons.mp hx with h | h
        · exact h
        · rcases List.mem_cons.mp h with h' | h'
          · exact h'
          · simpa using h'
      subst hxl
      exact mem_of_getLast?_eq run x hLast
  · rw [if_neg h4] at hx
    exact hx

theorem emitRun_length_le (run : List Char) : (emitRun run).length ≤ 3 := by
  unfold emitRun
  by_cases h4 : 4 ≤ run.length
  · rw [if_pos h4]
    cases run.getLast? <;> simp
  · rw [if_neg h4]
    omega

theorem emitRun_ne_nil (run : List Char) (h : run ≠ []) : emitRun run ≠ [] := by
  unfold emitRun
  by_cases h4 : 4 ≤ run.length
  · rw [if_pos h4]
    cases hLast : run.getLast? with
    | none => exact absurd (List.getLast?_eq_none_iff.mp hLast) h
    | some lc => simp
  · rw [if_neg h4]
    exact h

theorem mem_capPunctAux (l : List Char) : ∀ (run : List Char) (x : Char),
    x ∈ capPunctAux run l → x ∈ run ∨ x ∈ l := by
  induction l with
  | nil =>
    intro run x hx
    simp only [capPunctAux] at hx
    exact Or.inl (mem_emitRun run x hx)
  | cons c rest ih =>
    intro run x hx
    by_cases hc : isPunct c = true
    · simp only [capPunctAux, if_pos hc] at hx
      rcases ih (run ++ [c]) x hx with h | h
      · rcases List.mem_append.mp h with h' | h'
        · exact Or.inl h'
        · simp only [List.mem_singleton] at h'
          subst h'
          exact Or.inr (List.mem_cons_self _ _)
      · exact Or.inr (List.mem_cons_of_mem _ h)
    · simp only [capPunctAux, if_neg hc] at hx
      rcases List.mem_append.mp hx with h | h
      · exact Or.inl (mem_emitRun run x h)
      · rcases List.mem_cons.mp h with rfl | h'
        · exact Or.inr (List.mem_cons_self _ _)
        · rcases ih [] x h' with h'' | h''
          · simp at h''
          · exact Or.inr (List.mem_cons_of_mem _ h'')

theorem trimRight_prefix (l : List Char) : ∃ t, l = trimRight l ++ t := by
  induction l with
  | nil => exact ⟨[], rfl⟩
  | cons c rest ih =>
    obtain ⟨t, ht⟩ := ih
    simp only [trimRight]
    cases htr : trimRight rest with
    | nil =>
      rw [htr] at ht
      simp only [htr]
      by_cases hws : isJsSpace c = true
      · rw [if_pos hws]
        exact ⟨c :: rest, rfl⟩
      · rw [if_neg hws]
        exact ⟨rest, by simp⟩
    | cons d r =>
      rw [htr] at ht
      simp only [htr]
      exact ⟨t, by rw [List.cons_append, ← ht]⟩

theorem mem_trimRight (l : List Char) (x : Char) (hx : x ∈ trimRight l) :
    x ∈ l := by
  obtain ⟨t, ht⟩ := trimRight_prefix l
  rw [ht]
  exact List.mem_append.mpr (Or.inl hx)

theorem mem_jsTrimList (l : List Char) (x : Char) (hx : x ∈ jsTrimList l) :
    x ∈ l := by
  unfold jsTrimList at hx
  exact (List.dropWhile_sublist isJsSpace).mem (mem_trimRight _ x hx)

/-- A character neither stripped by the control-class replace nor collapsed
as whitespace is not a C0/DEL control character. -/
theorem char_ctl_classify (c : Char) (h1 : isRemovedCtl c = false)
    (h2 : isJsSpace c = false) : isC0orDel c = false := by
  simp only [isRemovedCtl, isJsSpace, isC0orDel, Bool.or_eq_false_iff,
    decide_eq_false_iff_not, Bool.and_eq_false_iff,
    decide_eq_true_eq] at h1 h2 ⊢
  omega

/-- C8 (a): the sanitized output contains no C0 control character and no
DEL. -/
theorem sanitizeList_no_ctl (l : List Char) (x : Char)
    (hx : x ∈ sanitizeList l) : isC0orDel x = false := by
  unfold sanitizeList at hx
  have hx1 := mem_jsTrimList _ x hx
  rcases mem_capPunctAux _ [] x hx1 with h | h
  · simp at h
  · rw [List.mem_filter] at h
    obtain ⟨hmem, hkeep⟩ := h
    have hrm : isRemovedCtl x = false := by simpa using hkeep
    rcases mem_collapseWsAux l false x hmem with rfl | ⟨_, hws⟩
    · decide
    · exact char_ctl_classify x hrm hws

theorem runBoundAux_mono (p : Char → Bool) (k : Nat) (l : List Char) :
    ∀ cnt cnt', cnt' ≤ cnt → runBoundAux p k cnt l = true →
      runBoundAux p k cnt' l = true := by
  induction l with
  | nil =>
    intro _ _ _ _
    rfl
  | cons c rest ih =>
    intro cnt cnt' hle h
    by_cases hc : p c = true
    · simp only [runBoundAux, if_pos hc, Bool.and_eq_true,
        decide_eq_true_eq] at h ⊢
      exact ⟨by omega, ih _ _ (by omega) h.2⟩
    · simp only [runBoundAux, if_neg hc] at h ⊢
      exact h

theorem runBoundAux_tail (p : Char → Bool) (k : Nat) (a : Char)
    (t : List Char) (h : runBoundAux p k 0 (a :: t) = true) :
    runBoundAux p k 0 t = true := by
  by_cases hc : p a = true
  · simp only [runBoundAux, if_pos hc, Bool.and_eq_true] at h
    exact runBoundAux_mono p k t 1 0 (by omega) h.2
  · simpa [runBoundAux, hc] using h

theorem runBoundAux_dropWhile (p : Char → Bool) (k : Nat)
    (q : Char → Bool) (l : List Char) (h : runBoundAux p k 0 l = true) :
    runBoundAux p k 0 (l.dropWhile q) = true := by
  induction l with
  | nil => simpa using h
  | cons c rest ih =>
    by_cases hq : q c = true
    · simp only [List.dropWhile_cons, if_pos hq]
      exact ih (runBoundAux_tail p k c rest h)
    · simpa [List.dropWhile_cons, hq] using h

theorem runBoundAux_prefix (p : Char → Bool) (k : Nat) :
    ∀ (l1 l2 : List Char) (cnt : Nat),
      runBoundAux p k cnt (l1 ++ l2) = true →
      runBoundAux p k cnt l1 = true := by
  intro l1
  induction l1 with
  | nil =>
    intro _ _ _
    rfl
  | cons c rest ih =>
    intro l2 cnt h
    by_cases hc : p c = true
    · simp only [List.cons_append, runBoundAux, if_pos hc,
        Bool.and_eq_true] at h ⊢
      exact ⟨h.1, ih l2 _ h.2⟩
    · simp only [List.cons_append, runBoundAux, if_neg hc] at h ⊢
      exact ih l2 0 h

theorem runBoundAux_trimRight (p : Char → Bool) (k : Nat) (l : List Char)
    (h : runBoundAux p k 0 l = true) :
    runBoundAux p k 0 (trimRight l) = true := by
  obtain ⟨t, ht⟩ := trimRight_prefix l
  rw [ht] at h
  exact runBoundAux_prefix p k (trimRight l) t 0 h

theorem runBoundAux_all (p : Char → Bool) (k : Nat) (l : List Char) :
    ∀ (cnt : Nat), (∀ x ∈ l, p x = true) → cnt + l.length ≤ k →
      runBoundAux p k cnt l = true := by
  induction l with
  | nil =>
    intro _ _ _
    rfl
  | cons c rest ih =>
    intro cnt hall hlen
    have hc : p c = true := hall c (by simp)
    simp only [runBoundAux, if_pos hc, Bool.and_eq_true, decide_eq_true_eq]
    simp only [List.length_cons] at hlen
    exact ⟨by omega, ih (cnt + 1) (fun x hx => hall x (by simp [hx]))
      (by omega)⟩

theorem runBoundAux_chunk (p : Char → Bool) (k : Nat) :
    ∀ (chunk Z : List Char) (cnt : Nat),
      (∀ x ∈ chunk, p x = true) → cnt + chunk.length ≤ k →
      runBoundAux p k 0 Z = true →
      (match Z with | [] => True | z :: _ => p z = false) →
      runBoundAux p k cnt (chunk ++ Z) = true := by
  intro chunk
  induction chunk with
  | nil =>
    intro Z cnt _ _ hZ hhead
    cases Z with
    | nil => rfl
    | cons z zs =>
      have hz : p z = false := hhead
      simp only [List.nil_append, runBoundAux,
        if_neg (by simp [hz] : ¬(p z = true))]
      simpa [runBoundAux, hz] using hZ
  | cons a ch ih =>
    intro Z cnt hall hlen hZ hhead
    have ha : p a = true := hall a (by simp)
    simp only [List.cons_append, runBoundAux, if_pos ha, Bool.and_eq_true,
      decide_eq_true_eq]
    simp only [List.length_cons] at hlen
    exact ⟨by omega, ih Z (cnt + 1) (fun x hx => hall x (by simp [hx]))
      (by omega) hZ hhead⟩

theorem capPunctAux_runBound (l : List Char) : ∀ (run : List Char),
    (∀ x ∈ run, isPunct x = true) →
    runBoundAux isPunct 3 0 (capPunctAux run l) = true := by
  induction l with
  | nil =>
    intro run hall
    simp only [capPunctAux]
    exact runBoundAux_all isPunct 3 (emitRun run) 0
      (fun x hx => hall x (mem_emitRun run x hx))
      (by have := emitRun_length_le run; omega)
  | cons c rest ih =>
    intro run hall
    by_cases hc : isPunct c = true
    · simp only [capPunctAux, if_pos hc]
      refine ih (run ++ [c]) ?_
      intro x hx
      rcases List.mem_append.mp hx with h | h
      · exact hall x h
      · simp only [List.mem_singleton] at h
        subst h
        exact hc
    · simp only [capPunctAux, if_neg hc]
      refine runBoundAux_chunk isPunct 3 (emitRun run)
        (c :: capPunctAux [] rest) 0
        (fun x hx => hall x (mem_emitRun run x hx))
        (by have := emitRun_length_le run; omega) ?_ (by simpa using hc)
      simp only [runBoundAux, if_neg hc]
      exact ih [] (by simp)

/-- C8 (c): punctuation runs in the sanitized output never exceed 3. -/
theorem sanitizeList_runBound (l : List Char) :
    runBoundAux isPunct 3 0 (sanitizeList l) = true := by
  unfold sanitizeList jsTrimList
  apply runBoundAux_trimRight
  apply runBoundAux_dropWhile
  exact capPunctAux_runBound _ [] (by simp)

theorem noTwoAdj_cons_false (p : Char → Bool) (a : Char) (l : List Char)
    (ha : p a = false) : noTwoAdj p (a :: l) = noTwoAdj p l := by
  cases l with
  | nil => simp [noTwoAdj]
  | cons b r => simp [noTwoAdj, ha]

theorem noTwoAdj_tail (p : Char → Bool) (a : Char) (l : List Char)
    (h : noTwoAdj p (a :: l) = true) : noTwoAdj p l = true := by
  cases l with
  | nil => rfl
  | cons b r =>
    simp only [noTwoAdj, Bool.and_eq_true] at h
    exact h.2

theorem noTwoAdj_dropWhile (p q : Char → Bool) (l : List Char)
    (h : noTwoAdj p l = true) : noTwoAdj p (l.dropWhile q) = true := by
  induction l with
  | nil => simpa using h
  | cons c rest ih =>
    by_cases hq : q c = true
    · simp only [List.dropWhile_cons, if_pos hq]
      exact ih (noTwoAdj_tail p c rest h)
    · simpa [List.dropWhile_cons, hq] using h

theorem noTwoAdj_prefix (p : Char → Bool) : ∀ (l1 l2 : List Char),
    noTwoAdj p (l1 ++ l2) = true → noTwoAdj p l1 = true := by
  intro l1
  induction l1 with
  | nil =>
    intro _ _
    rfl
  | cons a r ih =>
    intro l2 h
    cases r with
    | nil => rfl
    | cons b r' =>
      simp only [List.cons_append, noTwoAdj, Bool.and_eq_true] at h ⊢
      exact ⟨h.1, ih l2 h.2⟩

theorem noTwoAdj_trimRight (p : Char → Bool) (l : List Char)
    (h : noTwoAdj p l = true) : noTwoAdj p (trimRight l) = true := by
  obtain ⟨t, ht⟩ := trimRight_prefix l
  rw [ht] at h
  exact noTwoAdj_prefix p (trimRight l) t h

theorem noTwoAdj_append_chunk (p : Char → Bool) (chunk Z : List Char)
    (hch : ∀ x ∈ chunk, p x = false) (hZ : noTwoAdj p Z = true) :
    noTwoAdj p (chunk ++ Z) = true := by
  induction chunk with
  | nil => simpa using hZ
  | cons a r ih =>
    have ha : p a = false := hch a (by simp)
    rw [List.cons_append, noTwoAdj_cons_false p a _ ha]
    exact ih (fun x hx => hch x (by simp [hx]))

theorem noTwoAdj_of_all_false (p : Char → Bool) (l : List Char)
    (h : ∀ x ∈ l, p x = false) : noTwoAdj p l = true := by
  have := noTwoAdj_append_chunk p l [] h rfl
  simpa using this

/-- The whitespace-collapsing pass leaves no two adjacent whitespace
characters, and after a collapsed run the output continues with a
non-whitespace character. -/
theorem collapseWsAux_noTwoAdj (l : List Char) :
    (headIsWs (collapseWsAux true l) = false ∧
      noTwoAdj isJsSpace (collapseWsAux true l) = true) ∧
    noTwoAdj isJsSpace (collapseWsAux false l) = true := by
  induction l with
  | nil => exact ⟨⟨rfl, rfl⟩, rfl⟩
  | cons c rest ih =>
    obtain ⟨⟨ih1, ih2⟩, ih3⟩ := ih
    by_cases hc : isJsSpace c = true
    · refine ⟨⟨?_, ?_⟩, ?_⟩
      · simpa [collapseWsAux, hc] using ih1
      · simpa [collapseWsAux, hc] using ih2
      · simp only [collapseWsAux, if_pos hc, if_neg (by simp : ¬(false = true))]
        cases hA : collapseWsAux true rest with
        | nil => simp [noTwoAdj]
        | cons d r =>
          rw [hA] at ih1 ih2
          simp only [noTwoAdj, Bool.and_eq_true]
          refine ⟨?_, ih2⟩
          have hd : isJsSpace d = false := by simpa [headIsWs] using ih1
          simp [hd]
    · have hcc : isJsSpace c = false := by simpa using hc
      refine ⟨⟨?_, ?_⟩, ?_⟩
      · simp [collapseWsAux, hc, headIsWs, hcc]
      · simp only [collapseWsAux, if_neg hc]
        rw [noTwoAdj_cons_false isJsSpace c _ hcc]
        exact ih3
      · simp only [collapseWsAux, if_neg hc]
        rw [noTwoAdj_cons_false isJsSpace c _ hcc]
        exact ih3

theorem punct_not_ws (c : Char) (h : isPunct c = true) :
    isJsSpace c = false := by
  simp only [isPunct, Bool.or_eq_true, decide_eq_true_eq] at h
  rcases h with ((h | h) | h) | h <;> subst h <;> decide

theorem headIsWs_append (chunk Z : List Char) (h : chunk ≠ []) :
    headIsWs (chunk ++ Z) = headIsWs chunk := by
  cases chunk with
  | nil => exact absurd rfl h
  | cons a r => rfl

theorem headIsWs_emitRun (run : List Char) (hne : run ≠ [])
    (hall : ∀ x ∈ run, isPunct x = true) :
    headIsWs (emitRun run) = false := by
  cases hE : emitRun run with
  | nil => exact absurd hE (emitRun_ne_nil run hne)
  | cons a r =>
    have ha : a ∈ emitRun run := by simp [hE]
    have hp : isPunct a = true := hall a (mem_emitRun run a ha)
    simp [headIsWs, punct_not_ws a hp]

theorem headIsWs_capPunctAux_ne (l : List Char) : ∀ (run : List Char),
    run ≠ [] → (∀ x ∈ run, isPunct x = true) →
    headIsWs (capPunctAux run l) = false := by
  induction l with
  | nil =>
    intro run hne hall
    simpa [capPunctAux] using headIsWs_emitRun run hne hall
  | cons c rest ih =>
    intro run hne hall
    by_cases hc : isPunct c = true
    · simp only [capPunctAux, if_pos hc]
      refine ih (run ++ [c]) (by simp) ?_
      intro x hx
      rcases List.mem_append.mp hx with h | h
      · exact hall x h
      · simp only [List.mem_singleton] at h
        subst h
        exact hc
    · simp only [capPunctAux, if_neg hc]
      rw [headIsWs_append _ _ (emitRun_ne_nil run hne)]
      exact headIsWs_emitRun run hne hall

theorem headIsWs_capPunctAux_nil (l : List Char) :
    headIsWs (capPunctAux [] l) = headIsWs l := by
  cases l with
  | nil => rfl
  | cons c rest =>
    by_cases hc : isPunct c = true
    · simp only [capPunctAux, if_pos hc, List.nil_append]
      rw [headIsWs_capPunctAux_ne rest [c] (by simp) (by simpa using hc)]
      simp [headIsWs, punct_not_ws c hc]
    · simp only [capPunctAux, if_neg hc, emitRun, List.nil_append]
      simp [headIsWs]

/-- The punctuation-capping pass cannot create adjacent whitespace. -/
theorem capPunctAux_noTwoAdjWs (l : List Char) : ∀ (run : List Char),
    (∀ x ∈ run, isPunct x = true) → noTwoAdj isJsSpace l = true →
    noTwoAdj isJsSpace (capPunctAux run l) = true := by
  induction l with
  | nil =>
    intro run hall _
    simp only [capPunctAux]
    exact noTwoAdj_of_all_false _ _
      (fun x hx => punct_not_ws x (hall x (mem_emitRun run x hx)))
  | cons c rest ih =>
    intro run hall hl
    by_cases hc : isPunct c = true
    · simp only [capPunctAux, if_pos hc]
      refine ih (run ++ [c]) ?_ (noTwoAdj_tail _ _ _ hl)
      intro x hx
      rcases List.mem_append.mp hx with h | h
      · exact hall x h
      · simp only [List.mem_singleton] at h
        subst h
        exact hc
    · simp only [capPunctAux, if_neg hc]
      apply noTwoAdj_append_chunk
      · intro x hx
        exact punct_not_ws x (hall x (mem_emitRun run x hx))
      · have hX' : noTwoAdj isJsSpace (capPunctAux [] rest) = true :=
          ih [] (by simp) (noTwoAdj_tail _ _ _ hl)
        cases hX : capPunctAux [] rest with
        | nil => simp [noTwoAdj]
        | cons d r =>
          rw [hX] at hX'
          simp only [noTwoAdj, Bool.and_eq_true]
          refine ⟨?_, hX'⟩
          have hd : isJsSpace d = headIsWs rest := by
            have hh := headIsWs_capPunctAux_nil rest
            rw [hX] at hh
            simpa [headIsWs] using hh
          by_cases hwc : isJsSpace c = true
          · cases rest with
            | nil => simp [capPunctAux, emitRun] at hX
            | cons e r2 =>
              simp only [noTwoAdj, Bool.and_eq_true] at hl
              have he : isJsSpace e = false := by
                have h1 := hl.1
                rw [hwc] at h1
                simpa using h1
              have : isJsSpace d = false := by
                rw [hd]
                simpa [headIsWs] using he
              simp [this]
          · simp [Bool.not_eq_true] at hwc
            simp [hwc]

/-- A string with none of the stripped control characters passes the strip
unchanged after whitespace collapsing. -/
theorem stripCtl_id (l : List Char)
    (h : ∀ x ∈ l, isRemovedCtl x = false) :
    (collapseWsAux false l).filter (fun c => !isRemovedCtl c) =
      collapseWsAux false l := by
  rw [List.filter_eq_self]
  intro a ha
  rcases mem_collapseWsAux l false a ha with rfl | ⟨h1, _⟩
  · decide
  · simp [h a h1]

/-- C8 (d): with no stripped control characters in the input, the output has
no two adjacent whitespace characters. -/
theorem sanitizeList_noTwoAdjWs (l : List Char)
    (h : ∀ x ∈ l, isRemovedCtl x = false) :
    noTwoAdj isJsSpace (sanitizeList l) = true := by
  unfold sanitizeList jsTrimList
  rw [stripCtl_id l h]
  apply noTwoAdj_trimRight
  apply noTwoAdj_dropWhile
  exact capPunctAux_noTwoAdjWs _ [] (by simp) (collapseWsAux_noTwoAdj l).2

/-- C8 counterexample: a NUL byte between two spaces survives whitespace
collapsing (it is not `\s`) and is stripped only afterwards, leaving two
adjacent spaces in the output; and the C1 control U+0085 passes through
untouched, so the output is not control-free in general. -/
theorem sanitizeInput_normal_form_cex :
    sanitizeInput "a \x00 b" = "a  b" ∧
    noTwoAdj isJsSpace (sanitizeInput "a \x00 b").data = false ∧
    sanitizeInput "a\u0085b" = "a\u0085b" ∧
    (sanitizeInput "a\u0085b").data.any
      (fun c => decide (0x7F ≤ c.toNat) && decide (c.toNat ≤ 0x9F)) =
      true := by
  refine ⟨?_, ?_, ?_, ?_⟩ <;> decide

/-- C8, amended.  The sanitized output contains no C0/DEL control character
(C1 controls can survive), has no leading or trailing whitespace, and caps
every `!?.,` run at 3; whitespace runs are collapsed to single spaces —
with no two adjacent whitespace characters left — for every input free of
the stripped control class (stripping a control character can merge two
collapsed runs).  `translateToSarcasm` runs on `sanitizeInput` of the text
and of the non-empty context before any cache lookup, cache store or prompt
construction. -/
theorem sanitizeInput_normal_form :
    (∀ (s : String), ∀ x ∈ (sanitizeInput s).data, isC0orDel x = false) ∧
    (∀ (s : String), headNotWs (sanitizeInput s).data = true ∧
      lastNotWs (sanitizeInput s).data = true) ∧
    (∀ (s : String), runBoundAux isPunct 3 0 (sanitizeInput s).data = true) ∧
    (∀ (s : String), (∀ x ∈ s.data, isRemovedCtl x = false) →
      noTwoAdj isJsSpace (sanitizeInput s).data = true) ∧
    (∀ (c : LRUCache) (now : Nat) (text mode intent context : String)
        (call : CallOutcome),
      translateToSarcasm c now text mode intent context call =
        translateSanitized c now (sanitizeInput text) mode intent
          (if context = "" then "" else sanitizeInput context) call) := by
  refine ⟨?_, ?_, ?_, ?_, ?_⟩
  · intro s x hx
    exact sanitizeList_no_ctl s.data x hx
  · intro s
    exact ⟨headNotWs_jsTrimList _, lastNotWs_jsTrimList _⟩
  · intro s
    exact sanitizeList_runBound s.data
  · intro s h
    exact sanitizeList_noTwoAdjWs s.data h
  · intro c now text mode intent context call
    rfl

/-- C8 witness: the amended theorem at a concrete string (discharging the
no-control-characters hypothesis) and a concrete orchestrator call. -/
theorem sanitizeInput_normal_form_witness :
    (∀ x ∈ (sanitizeInput "a  b!!").data, isC0orDel x = false) ∧
    noTwoAdj isJsSpace (sanitizeInput "a  b!!").data = true ∧
    translateToSarcasm ⟨500, 300000, []⟩ 0 "a  b!!" "light" "rewrite" ""
        (CallOutcome.success ⟨none, "x"⟩) =
      translateSanitized ⟨500, 300000, []⟩ 0 (sanitizeInput "a  b!!")
        "light" "rewrite"
        (if ("" : String) = "" then "" else sanitizeInput "")
        (CallOutcome.success ⟨none, "x"⟩) := by
  refine ⟨?_, ?_, ?_⟩
  · exact sanitizeInput_normal_form.1 "a  b!!"
  · exact sanitizeInput_normal_form.2.2.2.1 "a  b!!" (by decide)
  · exact sanitizeInput_normal_form.2.2.2.2 ⟨500, 300000, []⟩ 0 "a  b!!"
      "light" "rewrite" "" (CallOutcome.success ⟨none, "x"⟩)

/-! ## Lemmas on the translation orchestrator -/

theorem mapCaughtError_blocked :
    mapCaughtError ⟨"CONTENT_BLOCKED", none, none⟩ =
      "I can't roast that one. Try something different!" := by decide

theorem mapCaughtError_empty :
    mapCaughtError ⟨"EMPTY_RESPONSE", none, none⟩ =
      "My wit failed me. Give it another shot!" := by decide

/-- `get` on an absent key leaves the cache untouched. -/
theorem LRUCache.get_none (c : LRUCache) (now : Nat) (t m i x : String)
    (h : jsMapGet c.entries (LRUCache.generateKey t m i x) = none) :
    LRUCache.get c now t m i x = (none, c) := by
  simp only [LRUCache.get, h]

/-- `get` on an expired entry deletes it and reports absent. -/
theorem LRUCache.get_expired (c : LRUCache) (now : Nat) (t m i x : String)
    (e : CacheEntry)
    (h : jsMapGet c.entries (LRUCache.generateKey t m i x) = some e)
    (hexp : c.ttl < now - e.timestamp) :
    LRUCache.get c now t m i x =
      (none, { c with
        entries := jsMapDelete c.entries (LRUCache.generateKey t m i x) }) := by
  simp only [LRUCache.get, h, if_pos hexp]

/-- `get` on a live entry moves it to the end and returns its value. -/
theorem LRUCache.get_live (c : LRUCache) (now : Nat) (t m i x : String)
    (e : CacheEntry)
    (h : jsMapGet c.entries (LRUCache.generateKey t m i x) = some e)
    (hexp : ¬(c.ttl < now - e.timestamp)) :
    LRUCache.get c now t m i x =
      (some e.value, { c with
        entries := jsMapSet (jsMapDelete c.entries (LRUCache.generateKey t m i x)) (LRUCache.generateKey t m i x) e }) := by
  simp only [LRUCache.get, h, if_neg hexp]

/-- Every entry of the cache after a `set` is the new entry or an old one. -/
theorem mem_set_entries (c : LRUCache) (now : Nat) (t m i x v : String)
    (kv : String × CacheEntry)
    (hkv : kv ∈ (LRUCache.set c now t m i x v).entries) :
    kv = (LRUCache.generateKey t m i x, ⟨v, now⟩) ∨ kv ∈ c.entries := by
  simp only [LRUCache.set] at hkv
  rcases mem_jsMapSet _ _ _ _ hkv with rfl | hkv'
  · exact Or.inl rfl
  · right
    by_cases hfull : c.maxSize ≤ c.entries.length
    · rw [if_pos hfull] at hkv'
      cases hE : c.entries with
      | nil =>
        simp only [hE] at hkv'
        simp at hkv'
      | cons kv0 rest =>
        obtain ⟨k0, e0⟩ := kv0
        simp only [hE] at hkv'
        by_cases h0 : k0 = ""
        · rw [if_pos h0] at hkv'
          exact hkv'
        · rw [if_neg h0] at hkv'
          exact mem_jsMapDelete _ _ _ hkv'
    · rw [if_neg hfull] at hkv'
      exact hkv'

/-- `LRUCache.get` never introduces a value that was not already stored. -/
theorem get_value_invariant (P : String → Prop) (c : LRUCache) (now : Nat)
    (t m i x : String) (h : ∀ kv ∈ c.entries, P kv.2.value) :
    ∀ kv ∈ (LRUCache.get c now t m i x).2.entries, P kv.2.value := by
  intro kv hkv
  cases hg : jsMapGet c.entries (LRUCache.generateKey t m i x) with
  | none =>
    rw [LRUCache.get_none c now t m i x hg] at hkv
    exact h kv hkv
  | some e =>
    by_cases hexp : c.ttl < now - e.timestamp
    · rw [LRUCache.get_expired c now t m i x e hg hexp] at hkv
      exact h kv (mem_jsMapDelete _ _ _ hkv)
    · rw [LRUCache.get_live c now t m i x e hg hexp] at hkv
      rcases mem_jsMapSet _ _ _ _ hkv with rfl | hkv'
      · exact h _ (jsMapGet_mem _ _ _ hg)
      · exact h kv (mem_jsMapDelete _ _ _ hkv')

/-- `LRUCache.set` only adds the supplied value. -/
theorem set_value_invariant (P : String → Prop) (c : LRUCache) (now : Nat)
    (t m i x v : String) (hv : P v)
    (h : ∀ kv ∈ c.entries, P kv.2.value) :
    ∀ kv ∈ (LRUCache.set c now t m i x v).entries, P kv.2.value := by
  intro kv hkv
  rcases mem_set_entries c now t m i x v kv hkv with rfl | hkv'
  · exact hv
  · exact h kv hkv'

/-- On the miss path a returned `Except.ok` carries a non-empty (trimmed)
string. -/
theorem afterMiss_ok_ne (c1 : LRUCache) (now : Nat)
    (text mode intent context : String) (call : CallOutcome) (s : String)
    (h : (afterMiss c1 now text mode intent context call).result =
      Except.ok s) : s ≠ "" := by
  cases call with
  | failure e => simp [afterMiss] at h
  | success r =>
    by_cases hb : isBlocked r = true
    · simp [afterMiss, hb] at h
    · by_cases he : (r.text = "" || jsTrimStr r.text = "") = true
      · simp only [afterMiss, Bool.not_eq_true] at h
        rw [if_neg hb, if_pos he] at h
        simp at h
      · simp only [afterMiss, Bool.not_eq_true] at h
        rw [if_neg hb, if_neg he] at h
        simp only [Except.ok.injEq] at h
        subst h
        simp only [Bool.or_eq_true, not_or, decide_eq_true_eq] at he
        exact he.2

/-- The miss path preserves "no empty value is stored". -/
theorem afterMiss_value_invariant (c1 : LRUCache) (now : Nat)
    (text mode intent context : String) (call : CallOutcome)
    (hinv : ∀ kv ∈ c1.entries, kv.2.value ≠ "") :
    ∀ kv ∈ (afterMiss c1 now text mode intent context call).cache.entries,
      kv.2.value ≠ "" := by
  cases call with
  | failure e => simpa [afterMiss] using hinv
  | success r =>
    by_cases hb : isBlocked r = true
    · simpa [afterMiss, hb] using hinv
    · by_cases he : (r.text = "" || jsTrimStr r.text = "") = true
      · intro kv hkv
        simp only [afterMiss, Bool.not_eq_true] at hkv
        rw [if_neg hb, if_pos he] at hkv
        exact hinv kv hkv
      · intro kv hkv
        simp only [afterMiss, Bool.not_eq_true] at hkv
        rw [if_neg hb, if_neg he] at hkv
        have hne : jsTrimStr r.text ≠ "" := by
          simp only [Bool.or_eq_true, not_or, decide_eq_true_eq] at he
          exact he.2
        exact set_value_invariant (fun v => v ≠ "") c1 now text mode intent
          context (jsTrimStr r.text) hne hinv kv hkv

/-- C7.  A safety-blocked or empty/whitespace-only result raises the mapped
content-blocked or empty-response error and stores nothing in the response
cache; `translateToSarcasm` never returns the empty string, and it never
caches an empty string as a translation value. -/
theorem translateToSarcasm_empty_blocked :
    (∀ (c : LRUCache) (now : Nat) (text mode intent context : String)
        (r : GenResponse),
      jsMapGet c.entries (LRUCache.generateKey (sanitizeInput text) mode
        intent (if context = "" then "" else sanitizeInput context)) = none →
      isBlocked r = true →
      (translateToSarcasm c now text mode intent context
          (CallOutcome.success r)).result =
        Except.error "I can't roast that one. Try something different!" ∧
      (translateToSarcasm c now text mode intent context
          (CallOutcome.success r)).cache = c) ∧
    (∀ (c : LRUCache) (now : Nat) (text mode intent context : String)
        (r : GenResponse),
      jsMapGet c.entries (LRUCache.generateKey (sanitizeInput text) mode
        intent (if context = "" then "" else sanitizeInput context)) = none →
      isBlocked r = false → jsTrimStr r.text = "" →
      (translateToSarcasm c now text mode intent context
          (CallOutcome.success r)).result =
        Except.error "My wit failed me. Give it another shot!" ∧
      (translateToSarcasm c now text mode intent context
          (CallOutcome.success r)).cache = c) ∧
    (∀ (c : LRUCache) (now : Nat) (text mode intent context : String)
        (call : CallOutcome) (s : String),
      (translateToSarcasm c now text mode intent context call).result =
        Except.ok s → s ≠ "") ∧
    (∀ (c : LRUCache) (now : Nat) (text mode intent context : String)
        (call : CallOutcome),
      (∀ kv ∈ c.entries, kv.2.value ≠ "") →
      ∀ kv ∈ (translateToSarcasm c now text mode intent
          context call).cache.entries, kv.2.value ≠ "") := by
  refine ⟨?_, ?_, ?_, ?_⟩
  · intro c now text mode intent context r hmiss hblock
    have hget : LRUCache.get c now (sanitizeInput text) mode intent
        (if context = "" then "" else sanitizeInput context) = (none, c) := by
      simp only [LRUCache.get, hmiss]
    constructor <;>
      simp [translateToSarcasm, translateSanitized, hget, afterMiss, hblock,
        mapCaughtError_blocked]
  · intro c now text mode intent context r hmiss hblock hempty
    have hget : LRUCache.get c now (sanitizeInput text) mode intent
        (if context = "" then "" else sanitizeInput context) = (none, c) := by
      simp only [LRUCache.get, hmiss]
    constructor <;>
      simp [translateToSarcasm, translateSanitized, hget, afterMiss, hblock,
        hempty, mapCaughtError_empty]
  · intro c now text mode intent context call s hres
    rcases hget : LRUCache.get c now (sanitizeInput text) mode intent
      (if context = "" then "" else sanitizeInput context) with ⟨g1, c1⟩
    cases g1 with
    | some v =>
      by_cases hv : v = ""
      · subst hv
        simp only [translateToSarcasm, translateSanitized, hget,
          if_pos rfl] at hres
        exact afterMiss_ok_ne _ _ _ _ _ _ _ _ hres
      · simp only [translateToSarcasm, translateSanitized, hget,
          if_neg hv] at hres
        simp only [Except.ok.injEq] at hres
        subst hres
        exact hv
    | none =>
      simp only [translateToSarcasm, translateSanitized, hget] at hres
      exact afterMiss_ok_ne _ _ _ _ _ _ _ _ hres
  · intro c now text mode intent context call hinv
    have hc1 : ∀ kv ∈ (LRUCache.get c now (sanitizeInput text) mode intent
        (if context = "" then "" else sanitizeInput context)).2.entries,
        kv.2.value ≠ "" :=
      get_value_invariant (fun v => v ≠ "") c now (sanitizeInput text) mode
        intent (if context = "" then "" else sanitizeInput context) hinv
    rcases hget : LRUCache.get c now (sanitizeInput text) mode intent
      (if context = "" then "" else sanitizeInput context) with ⟨g1, c1⟩
    rw [hget] at hc1
    cases g1 with
    | some v =>
      by_cases hv : v = ""
      · subst hv
        simp only [translateToSarcasm, translateSanitized, hget, if_pos rfl]
        exact afterMiss_value_invariant _ _ _ _ _ _ _ hc1
      · simp only [translateToSarcasm, translateSanitized, hget, if_neg hv]
        exact hc1
    | none =>
      simp only [translateToSarcasm, translateSanitized, hget]
      exact afterMiss_value_invariant _ _ _ _ _ _ _ hc1

/-- C7 witness: a blocked call, an empty result, a successful call and the
empty-cache invariant, all at concrete inputs. -/
theorem translateToSarcasm_empty_blocked_witness :
    ((translateToSarcasm ⟨500, 300000, []⟩ 0 "hi" "light" "rewrite" ""
        (CallOutcome.success ⟨some "SAFETY", "anything"⟩)).result =
        Except.error "I can't roast that one. Try something different!" ∧
      (translateToSarcasm ⟨500, 300000, []⟩ 0 "hi" "light" "rewrite" ""
        (CallOutcome.success ⟨some "SAFETY", "anything"⟩)).cache =
        ⟨500, 300000, []⟩) ∧
    ((translateToSarcasm ⟨500, 300000, []⟩ 0 "hi" "light" "rewrite" ""
        (CallOutcome.success ⟨none, "   "⟩)).result =
        Except.error "My wit failed me. Give it another shot!" ∧
      (translateToSarcasm ⟨500, 300000, []⟩ 0 "hi" "light" "rewrite" ""
        (CallOutcome.success ⟨none, "   "⟩)).cache = ⟨500, 300000, []⟩) ∧
    ("ok" : String) ≠ "" ∧
    (∀ kv ∈ (translateToSarcasm ⟨500, 300000, []⟩ 0 "hi" "light" "rewrite"
        "" (CallOutcome.success ⟨none, " ok "⟩)).cache.entries,
      kv.2.value ≠ "") := by
  refine ⟨?_, ?_, ?_, ?_⟩
  · exact translateToSarcasm_empty_blocked.1 ⟨500, 300000, []⟩ 0 "hi"
      "light" "rewrite" "" ⟨some "SAFETY", "anything"⟩ (by decide) (by decide)
  · exact translateToSarcasm_empty_blocked.2.1 ⟨500, 300000, []⟩ 0 "hi"
      "light" "rewrite" "" ⟨none, "   "⟩ (by decide) (by decide) (by decide)
  · exact translateToSarcasm_empty_blocked.2.2.1 ⟨500, 300000, []⟩ 0 "hi"
      "light" "rewrite" "" (CallOutcome.success ⟨none, " ok "⟩) "ok"
      (by decide)
  · exact translateToSarcasm_empty_blocked.2.2.2 ⟨500, 300000, []⟩ 0 "hi"
      "light" "rewrite" "" (CallOutcome.success ⟨none, " ok "⟩)
      (by intro kv hkv; simp at hkv)

/-- C5 counterexample: with the unrecognized mode `"bogus"` the instruction
differs from the one `mode = "light"` produces — the `default` switch branch
appends a shorter lighthearted tone line, not the `case "light"` block. -/
theorem buildSystemInstruction_fallback_cex :
    buildSystemInstruction "rewrite" "bogus" "" ≠
      buildSystemInstruction "rewrite" "light" "" := by decide

/-- C5, amended.  An unrecognized mode falls back to one fixed lighthearted
tone block (the same instruction for every unrecognized mode), but that
fallback block is the shorter `default` text, not the identical string the
recognized `"light"` mode produces. -/
theorem buildSystemInstruction_unrecognized_mode :
    ∀ (intent context mode mode' : String),
      mode ∉ validModes → mode' ∉ validModes →
      buildSystemInstruction intent mode context =
        buildSystemInstruction intent mode' context ∧
      buildSystemInstruction intent mode context ≠
        buildSystemInstruction intent "light" context := by
  intro intent context mode mode' hm hm'
  simp only [validModes, List.mem_cons, List.mem_singleton, not_or,
    List.not_mem_nil] at hm hm'
  obtain ⟨hm1, hm2, hm3, hm4, -⟩ := hm
  obtain ⟨hn1, hn2, hn3, hn4, -⟩ := hm'
  constructor
  · simp only [buildSystemInstruction, if_neg hm1, if_neg hm2, if_neg hm3,
      if_neg hm4, if_neg hn1, if_neg hn2, if_neg hn3, if_neg hn4]
  · intro h
    have e1 : ¬(("light" : String) = "corporate") := by decide
    simp only [buildSystemInstruction, if_neg hm1, if_neg hm2, if_neg hm3,
      if_neg hm4, if_neg e1, if_pos rfl, if_true] at h
    have hlen := congrArg String.length h
    simp only [String.length_append] at hlen
    have hne : toneDefault.length ≠ toneLight.length := by decide
    omega

/-- C5 witness: the amended theorem at two concrete unrecognized modes. -/
theorem buildSystemInstruction_unrecognized_mode_witness :
    buildSystemInstruction "rewrite" "bogus" "" =
      buildSystemInstruction "rewrite" "weird" "" ∧
    buildSystemInstruction "rewrite" "bogus" "" ≠
      buildSystemInstruction "rewrite" "light" "" :=
  buildSystemInstruction_unrecognized_mode "rewrite" "" "bogus" "weird"
    (by decide) (by decide)

/-- C9.  The derived cache key is not injective: two distinct input tuples
agreeing on mode and intent (the `":"` separator is not escaped inside
context or text) share one key, and a `get` for one tuple returns the value
a `set` stored for the other. -/
theorem generateKey_not_injective :
    LRUCache.generateKey "x" "m" "i" "a:b" =
      LRUCache.generateKey "b:x" "m" "i" "a" ∧
    ¬(("x" : String) = "b:x" ∧ ("a:b" : String) = "a") ∧
    (LRUCache.get (LRUCache.set ⟨500, 300000, []⟩ 0 "x" "m" "i" "a:b" "VAL")
        0 "b:x" "m" "i" "a").1 = some "VAL" := by
  refine ⟨?_, ?_, ?_⟩ <;> decide

/-- C10.  The first request of a window is always allowed, whatever the
ceiling: on a fresh or elapsed entry the call is allowed and count 1 is
stored, with `maxRequests = 0` yielding `remaining = -1`; a rejection can
only happen when a stored un-elapsed entry has already reached the
ceiling. -/
theorem checkRateLimit_first_allowed :
    (∀ (store : RLStore) (now : Nat) (ip : String) (maxR w : Nat),
      (jsMapGet store ip = none ∨
        ∃ e, jsMapGet store ip = some e ∧ e.resetTime < now) →
      (checkRateLimit store now ip maxR w).1.1 = true ∧
      jsMapGet (checkRateLimit store now ip maxR w).2 ip =
        some ⟨1, now + w⟩) ∧
    (∀ (store : RLStore) (now : Nat) (ip : String) (w : Nat),
      jsMapGet store ip = none →
      (checkRateLimit store now ip 0 w).1 = (true, -1)) ∧
    (∀ (store : RLStore) (now : Nat) (ip : String) (maxR w : Nat),
      (checkRateLimit store now ip maxR w).1.1 = false →
      ∃ e, jsMapGet store ip = some e ∧ now ≤ e.resetTime ∧
        maxR ≤ e.count) := by
  refine ⟨?_, ?_, ?_⟩
  · intro store now ip maxR w h
    rcases h with h | ⟨e, hget, helapsed⟩
    · constructor
      · simp [checkRateLimit, h]
      · simp [checkRateLimit, h, jsMapGet_set_self]
    · constructor
      · simp [checkRateLimit, hget, helapsed]
      · simp [checkRateLimit, hget, helapsed, jsMapGet_set_self]
  · intro store now ip w h
    simp [checkRateLimit, h]
  · intro store now ip maxR w h
    rcases hget : jsMapGet store ip with _ | e
    · simp [checkRateLimit, hget] at h
    · by_cases helapsed : e.resetTime < now
      · simp [checkRateLimit, hget, helapsed] at h
      · by_cases hcap : maxR ≤ e.count
        · exact ⟨e, hget ▸ rfl, by omega, hcap⟩
        · simp [checkRateLimit, hget, helapsed, hcap] at h

theorem insKey_ne_empty (p : CacheInput) : insKey p ≠ "" :=
  generateKey_ne_empty _ _ _ _

/-- Folding `LRUCache.set` over fresh, pairwise-distinct keys below capacity
appends the entries in order. -/
theorem setAll_fresh (l : List CacheInput) : ∀ (c : LRUCache) (now : Nat),
    c.entries.length + l.length ≤ c.maxSize →
    (∀ p ∈ l, jsMapGet c.entries (insKey p) = none) →
    (l.map insKey).Nodup →
    (setAll c now l).entries =
      c.entries ++ l.map (fun p => (insKey p, ⟨p.value, now⟩)) ∧
    (setAll c now l).maxSize = c.maxSize ∧ (setAll c now l).ttl = c.ttl := by
  induction l with
  | nil =>
    intro c now _ _ _
    simp [setAll]
  | cons p rest ih =>
    intro c now hlen hfresh hnd
    have hlen' : rest.length + 1 = (p :: rest).length := by simp
    have hlt : ¬(c.maxSize ≤ c.entries.length) := by omega
    have hkey : jsMapGet c.entries
        (LRUCache.generateKey p.text p.mode p.intent p.context) = none :=
      hfresh p (by simp)
    have hset : LRUCache.set c now p.text p.mode p.intent p.context p.value =
        { c with entries :=
            c.entries ++ [(insKey p, ⟨p.value, now⟩)] } := by
      simp only [LRUCache.set, if_neg hlt]
      rw [jsMapSet_fresh _ _ _ hkey]
      rfl
    have hunfold : setAll c now (p :: rest) =
        setAll (LRUCache.set c now p.text p.mode p.intent p.context p.value)
          now rest := rfl
    rw [hunfold, hset]
    simp only [List.map_cons, List.nodup_cons] at hnd
    have hih := ih { c with entries := c.entries ++ [(insKey p, ⟨p.value, now⟩)] }
      now (by simp; omega)
      (by
        intro q hq
        rw [jsMapGet_append]
        rw [hfresh q (List.mem_cons_of_mem _ hq)]
        have hne : ¬(insKey p = insKey q) := by
          intro hh
          exact hnd.1 (hh ▸ List.mem_map_of_mem insKey hq)
        simp [jsMapGet, hne])
      hnd.2
    refine ⟨?_, ?_, ?_⟩
    · rw [hih.1]
      simp
    · rw [hih.2.1]
    · rw [hih.2.2]

/-- C2.  Cache capacity and LRU eviction: from an empty cache of capacity
`max ≥ 1`, inserting `max + 1` tuples with pairwise-distinct derived keys
leaves exactly `max` entries, the oldest (first-inserted) key gone and all
later keys present; in general `set` below capacity evicts nothing, `set`
keeps the size within a capacity of at least 1, and a live `get` hit moves
its entry to the most-recently-used (last) position. -/
theorem lruCache_capacity_eviction :
    (∀ (max ttl now : Nat) (A : List CacheInput) (z : CacheInput),
      1 ≤ max → A.length = max →
      ((A ++ [z]).map insKey).Nodup →
      (setAll ⟨max, ttl, []⟩ now (A ++ [z])).entries.length = max ∧
      (∀ p0 ∈ A.head?,
        jsMapGet (setAll ⟨max, ttl, []⟩ now (A ++ [z])).entries (insKey p0) =
          none) ∧
      (∀ p ∈ A.tail ++ [z],
        (jsMapGet (setAll ⟨max, ttl, []⟩ now (A ++ [z])).entries
            (insKey p)).isSome = true)) ∧
    (∀ (c : LRUCache) (now : Nat) (t m i x v : String) (k' : String),
      c.entries.length < c.maxSize →
      (jsMapGet c.entries k').isSome = true →
      (jsMapGet (LRUCache.set c now t m i x v).entries k').isSome = true) ∧
    (∀ (c : LRUCache) (now : Nat) (t m i x v : String),
      1 ≤ c.maxSize →
      (∀ kv ∈ c.entries, kv.1 ≠ "") →
      c.entries.length ≤ c.maxSize →
      (LRUCache.set c now t m i x v).entries.length ≤ c.maxSize) ∧
    (∀ (c : LRUCache) (now : Nat) (t m i x : String) (e : CacheEntry),
      (c.entries.map Prod.fst).Nodup →
      jsMapGet c.entries (LRUCache.generateKey t m i x) = some e →
      now - e.timestamp ≤ c.ttl →
      (LRUCache.get c now t m i x).1 = some e.value ∧
      (LRUCache.get c now t m i x).2.entries.getLast? =
        some (LRUCache.generateKey t m i x, e)) := by
  refine ⟨?_, ?_, ?_, ?_⟩
  · intro max ttl now A z hmax hlen hnd
    have hndA : (A.map insKey).Nodup :=
      (by simpa using hnd : (A.map insKey ++ [insKey z]).Nodup).of_append_left
    have hA := setAll_fresh A ⟨max, ttl, []⟩ now (by simp [hlen])
      (by intro p _; simp [jsMapGet]) hndA
    obtain ⟨p0, A', rfl⟩ : ∃ p0 A', A = p0 :: A' := by
      cases A with
      | nil => simp at hlen; omega
      | cons a as => exact ⟨a, as, rfl⟩
    have hmapnd : ((p0 :: A').map insKey ++ [insKey z]).Nodup := by
      simpa using hnd
    rw [List.nodup_append] at hmapnd
    have hz_notin : insKey z ∉ (p0 :: A').map insKey := by
      intro hh
      exact hmapnd.2.2 hh (by simp)
    have hp0_notin : insKey p0 ∉ A'.map insKey := by
      have := hmapnd.1
      simp only [List.map_cons, List.nodup_cons] at this
      exact this.1
    -- the cache after the first `max` insertions
    have hcA_entries : (setAll ⟨max, ttl, []⟩ now (p0 :: A')).entries =
        (p0 :: A').map (fun p => (insKey p, ⟨p.value, now⟩)) := by
      rw [hA.1]; simp
    have hcA_len : (setAll ⟨max, ttl, []⟩ now (p0 :: A')).entries.length =
        max := by
      rw [hcA_entries]; simpa using hlen
    have hsplit : setAll ⟨max, ttl, []⟩ now ((p0 :: A') ++ [z]) =
        LRUCache.set (setAll ⟨max, ttl, []⟩ now (p0 :: A')) now
          z.text z.mode z.intent z.context z.value := by
      simp [setAll, List.foldl_append]
    have hfreshz : jsMapGet
        (A'.map (fun p => (insKey p, (⟨p.value, now⟩ : CacheEntry))))
        (LRUCache.generateKey z.text z.mode z.intent z.context) = none := by
      rw [jsMapGet_eq_none_iff]
      intro hh
      apply hz_notin
      have : (LRUCache.generateKey z.text z.mode z.intent z.context) ∈
          A'.map insKey := by
        simpa [Function.comp] using hh
      exact List.mem_cons_of_mem _ this
    have hfinal : (setAll ⟨max, ttl, []⟩ now ((p0 :: A') ++ [z])).entries =
        A'.map (fun p => (insKey p, ⟨p.value, now⟩)) ++
          [(insKey z, ⟨z.value, now⟩)] := by
      rw [hsplit]
      simp only [LRUCache.set]
      rw [if_pos (by rw [hcA_len, hA.2.1])]
      rw [hcA_entries]
      simp only [List.map_cons]
      rw [if_neg (insKey_ne_empty p0)]
      rw [jsMapDelete_head]
      rw [jsMapSet_fresh _ _ _ hfreshz]
      rfl
    refine ⟨?_, ?_, ?_⟩
    · rw [hfinal]
      simp only [List.length_append, List.length_map, List.length_singleton]
      simp only [List.length_cons] at hlen
      omega
    · intro q hq
      have hq' : p0 = q := by simpa using hq
      rw [← hq']
      rw [hfinal, jsMapGet_eq_none_iff]
      simp only [List.map_append, List.map_map, List.mem_append]
      rintro (hh | hh)
      · exact hp0_notin (by simpa [Function.comp] using hh)
      · have heq : insKey p0 = insKey z := by simpa using hh
        exact hmapnd.2.2 (show insKey p0 ∈ _ by simp) (by simp [heq])
    · intro q hq
      rw [hfinal, jsMapGet_isSome_iff]
      simp only [List.tail_cons, List.mem_append, List.mem_singleton] at hq
      simp only [List.map_append, List.map_map, List.mem_append]
      rcases hq with hq | hq
      · exact Or.inl (by
          simpa [Function.comp] using List.mem_map_of_mem insKey hq)
      · subst hq
        exact Or.inr (by simp)
  · intro c now t m i x v k' hlt hsome
    simp only [LRUCache.set, if_neg (by omega : ¬(c.maxSize ≤ c.entries.length))]
    by_cases hk : k' = LRUCache.generateKey t m i x
    · subst hk
      simp [jsMapGet_set_self]
    · rw [jsMapGet_set_ne _ _ _ _ hk]
      exact hsome
  · intro c now t m i x v hcap hkeys hlen
    by_cases hfull : c.maxSize ≤ c.entries.length
    · have : c.entries.length = c.maxSize := by omega
      cases hE : c.entries with
      | nil => rw [hE] at this; simp at this; omega
      | cons kv rest =>
        obtain ⟨k0, e0⟩ := kv
        have hk0 : k0 ≠ "" := hkeys (k0, e0) (by rw [hE]; simp)
        have hfull' : c.maxSize ≤ ((k0, e0) :: rest).length := by
          rw [← hE]; exact hfull
        have hlen' : ((k0, e0) :: rest).length = c.maxSize := by
          rw [← hE]; exact this
        simp only [LRUCache.set, hE, if_pos hfull']
        rw [if_neg hk0, jsMapDelete_head]
        calc (jsMapSet rest (LRUCache.generateKey t m i x)
                ⟨v, now⟩).length ≤ rest.length + 1 := length_jsMapSet_le _ _ _
          _ ≤ c.maxSize := by
              simp only [List.length_cons] at hlen'
              omega
    · simp only [LRUCache.set, if_neg hfull]
      calc (jsMapSet c.entries (LRUCache.generateKey t m i x)
              ⟨v, now⟩).length ≤ c.entries.length + 1 := length_jsMapSet_le _ _ _
        _ ≤ c.maxSize := by omega
  · intro c now t m i x e hnd hget hlive
    have hfresh : ¬(c.ttl < now - e.timestamp) := by omega
    simp only [LRUCache.get, hget, if_neg hfresh]
    refine ⟨trivial, ?_⟩
    have hdel : jsMapGet (jsMapDelete c.entries
        (LRUCache.generateKey t m i x)) (LRUCache.generateKey t m i x) =
        none := jsMapGet_delete_self _ _ hnd
    rw [jsMapSet_fresh _ _ _ hdel]
    rw [List.getLast?_append_of_ne_nil _ (by simp)]
    rfl

/-- C2 witness: capacity 2 with three distinct keys, plus the general parts
at concrete caches. -/
theorem lruCache_capacity_eviction_witness :
    ((setAll ⟨2, 100, []⟩ 0
        ([⟨"a", "m", "i", "", "va"⟩, ⟨"b", "m", "i", "", "vb"⟩] ++
          [⟨"c", "m", "i", "", "vc"⟩])).entries.length = 2 ∧
      (∀ p0 ∈ ([⟨"a", "m", "i", "", "va"⟩,
          ⟨"b", "m", "i", "", "vb"⟩] : List CacheInput).head?,
        jsMapGet (setAll ⟨2, 100, []⟩ 0
          ([⟨"a", "m", "i", "", "va"⟩, ⟨"b", "m", "i", "", "vb"⟩] ++
            [⟨"c", "m", "i", "", "vc"⟩])).entries (insKey p0) = none) ∧
      (∀ p ∈ ([⟨"a", "m", "i", "", "va"⟩,
          ⟨"b", "m", "i", "", "vb"⟩] : List CacheInput).tail ++
            [⟨"c", "m", "i", "", "vc"⟩],
        (jsMapGet (setAll ⟨2, 100, []⟩ 0
          ([⟨"a", "m", "i", "", "va"⟩, ⟨"b", "m", "i", "", "vb"⟩] ++
            [⟨"c", "m", "i", "", "vc"⟩])).entries (insKey p)).isSome =
          true)) ∧
    (jsMapGet (LRUCache.set ⟨3, 100, [("k", ⟨"v", 0⟩)]⟩ 1 "t" "m" "i" "" "w").entries
        "k").isSome = true ∧
    (LRUCache.set ⟨1, 100, [("k", ⟨"v", 0⟩)]⟩ 1 "t" "m" "i" "" "w").entries.length ≤ 1 ∧
    ((LRUCache.get ⟨2, 100, [("m:i::t", ⟨"v", 3⟩), ("k2", ⟨"w", 3⟩)]⟩ 4
        "t" "m" "i" "").1 = some "v" ∧
      (LRUCache.get ⟨2, 100, [("m:i::t", ⟨"v", 3⟩), ("k2", ⟨"w", 3⟩)]⟩ 4
        "t" "m" "i" "").2.entries.getLast? = some ("m:i::t", ⟨"v", 3⟩)) := by
  refine ⟨?_, ?_, ?_, ?_⟩
  · exact lruCache_capacity_eviction.1 2 100 0
      [⟨"a", "m", "i", "", "va"⟩, ⟨"b", "m", "i", "", "vb"⟩]
      ⟨"c", "m", "i", "", "vc"⟩ (by decide) (by decide) (by decide)
  · exact lruCache_capacity_eviction.2.1 ⟨3, 100, [("k", ⟨"v", 0⟩)]⟩ 1
      "t" "m" "i" "" "w" "k" (by decide) (by decide)
  · exact lruCache_capacity_eviction.2.2.1 ⟨1, 100, [("k", ⟨"v", 0⟩)]⟩ 1
      "t" "m" "i" "" "w" (by decide) (by decide) (by decide)
  · exact lruCache_capacity_eviction.2.2.2
      ⟨2, 100, [("m:i::t", ⟨"v", 3⟩), ("k2", ⟨"w", 3⟩)]⟩ 4 "t" "m" "i" ""
      ⟨"v", 3⟩ (by decide) (by decide) (by decide)

/-- C10 witness: the theorem applied at concrete inputs, ceiling 0
included. -/
theorem checkRateLimit_first_allowed_witness :
    ((checkRateLimit [("c", ⟨5, 3⟩)] 4 "c" 0 10).1.1 = true ∧
      jsMapGet (checkRateLimit [("c", ⟨5, 3⟩)] 4 "c" 0 10).2 "c" =
        some ⟨1, 4 + 10⟩) ∧
    (checkRateLimit [] 4 "c" 0 10).1 = (true, -1) ∧
    (∃ e, jsMapGet [("c", (⟨2, 9⟩ : RateLimitEntry))] "c" = some e ∧
      5 ≤ e.resetTime ∧ 2 ≤ e.count) := by
  refine ⟨?_, ?_, ?_⟩
  · exact checkRateLimit_first_allowed.1 [("c", ⟨5, 3⟩)] 4 "c" 0 10
      (Or.inr ⟨⟨5, 3⟩, by decide, by decide⟩)
  · exact checkRateLimit_first_allowed.2.1 [] 4 "c" 10 (by decide)
  · exact checkRateLimit_first_allowed.2.2 [("c", ⟨2, 9⟩)] 5 "c" 2 10
      (by decide)
